import Mathlib

/-!
Verification development for the `ajidamal` SMS PDU codec
(`src/gsm/pdu.rs`) and the hardware frame-buffer display backend
(`src/display/frame_buffer.rs`).

The Rust code is shallowly embedded: byte buffers (`&[u8]`) become
`List Nat` (each element a byte value), Rust `String`/`char` become
`List Char`/`Char`, and machine-integer arithmetic is carried out on
`Nat` with explicit `% 256` (u8) or `% 2^64` (u64) where the Rust types
truncate.  Arithmetic that panics in Rust debug builds on
overflow/underflow (`u8` subtraction/addition, `usize` subtraction) is
modelled with explicit checks that surface the panic outcome.

The nom 3.x combinator framework used by the source is modelled by the
four-valued result `PRes`:
  * `done rest val`  — `IResult::Done(rest, val)`
  * `perror`         — `IResult::Error(_)` (hard parse failure)
  * `incomplete n`   — `IResult::Incomplete(Needed::Size n)`
  * `aborted`        — a Rust panic (`unwrap()` on a non-`Done` result,
                       failed `assert!`, arithmetic overflow, index out
                       of bounds): the process dies.
-/

inductive PRes (α : Type) where
  | done (rest : List Nat) (val : α)
  | perror
  | incomplete (needed : Nat)
  | aborted
deriving Repr, DecidableEq

namespace PRes

def bind {α β : Type} : PRes α → (List Nat → α → PRes β) → PRes β
  | .done r v, f => f r v
  | .perror, _ => .perror
  | .incomplete n, _ => .incomplete n
  | .aborted, _ => .aborted

def mapVal {α β : Type} (f : α → β) : PRes α → PRes β
  | .done r v => .done r (f v)
  | .perror => .perror
  | .incomplete n => .incomplete n
  | .aborted => .aborted

def isDone {α : Type} : PRes α → Bool
  | .done _ _ => true
  | _ => false

def isIncomplete {α : Type} : PRes α → Bool
  | .incomplete _ => true
  | _ => false

end PRes

/-- nom `take!(n)`: consume exactly `n` input bytes, `Incomplete` when fewer
remain. -/
def takeN (n : Nat) (input : List Nat) : PRes (List Nat) :=
  if input.length < n then .incomplete n else .done (input.drop n) (input.take n)

/-- nom `map_res!(p, g)`: run `p`, then apply the fallible Rust function `g`
to its output; `Err` becomes a parse error. -/
def mapRes {α β : Type} (p : List Nat → PRes α) (g : α → Option β)
    (input : List Nat) : PRes β :=
  match p input with
  | .done r v =>
    match g v with
    | some b => .done r b
    | none => .perror
  | .perror => .perror
  | .incomplete n => .incomplete n
  | .aborted => .aborted

/-- Rust debug-build checked subtraction on an unsigned integer: underflow
panics. -/
def checkedSub (a b : Nat) : Option Nat :=
  if b ≤ a then some (a - b) else none

/-! ## Hex primitives (`u4_to_hex`, `u8_to_hex`, `u8_from_hex_str`,
`u16_from_hex_str`, `hex_octet`) -/

/-- Embedding of `u4_to_hex` from pdu.rs: nibble to uppercase ASCII hex digit.  The
source asserts `data <= 15`; every call site passes a nibble, so the
catch-all 0 is unreachable. -/
def u4_to_hex (data : Nat) : Nat :=
  match data with
  | 0 => 48 | 1 => 49 | 2 => 50 | 3 => 51 | 4 => 52
  | 5 => 53 | 6 => 54 | 7 => 55 | 8 => 56 | 9 => 57
  | 10 => 65 | 11 => 66 | 12 => 67 | 13 => 68 | 14 => 69 | 15 => 70
  | _ => 0

/-- Embedding of `u8_to_hex` from pdu.rs: push the high nibble's hex digit then the low
nibble's.  The argument is a Rust `u8`, hence the `% 256` at the boundary. -/
def u8_to_hex (data : Nat) : List Nat :=
  [u4_to_hex ((data % 256) >>> 4), u4_to_hex (data % 16)]

/-- Value of one ASCII hex digit (either case), as accepted by Rust's
`from_str_radix(s, 16)`. -/
def hex_digit_value (c : Nat) : Option Nat :=
  if 48 ≤ c ∧ c ≤ 57 then some (c - 48)
  else if 65 ≤ c ∧ c ≤ 70 then some (c - 55)
  else if 97 ≤ c ∧ c ≤ 102 then some (c - 87)
  else none

def hex_digits_value (l : List Nat) : Option Nat :=
  l.foldl (fun acc c => acc.bind fun a => (hex_digit_value c).map fun v => 16 * a + v)
    (some 0)

/-- Rust `uN::from_str_radix(s, 16)` on a short byte slice: an optional
leading `+`, then at least one hex digit.  (A slice that is not valid
UTF-8 fails `str::from_utf8` in the source; any such two- or four-byte
slice also contains a byte that is not a hex digit or `+`, so both paths
collapse to `none`.  The overflow check never fires at the call sites,
which pass at most 4 digits into a `u16`.) -/
def from_str_radix_16 (s : List Nat) : Option Nat :=
  let ds := if s.head? = some 43 then s.tail else s
  if ds.isEmpty then none else hex_digits_value ds

/-- Embedding of `u8_from_hex_str` from pdu.rs. -/
def u8_from_hex_str (data : List Nat) : Option Nat :=
  from_str_radix_16 data

/-- Embedding of `u16_from_hex_str` from pdu.rs. -/
def u16_from_hex_str (data : List Nat) : Option Nat :=
  from_str_radix_16 data

/-- Embedding of `named!(hex_octet<u8>, map_res!(take!(2), u8_from_hex_str))`. -/
def hex_octet (input : List Nat) : PRes Nat :=
  mapRes (takeN 2) u8_from_hex_str input

/-! ## Address codec (`AddressType`, `Number`, `Number::serialize_to_pdu`,
`str_from_decimal_octet`, `decimal_octet`, `get_decimal_length`,
`to_address_type`, `decimal_octet_number`) -/

inductive AddressType where
  | International  -- 145
  | ShortCode      -- 201
deriving Repr, DecidableEq

structure Number where
  format : AddressType
  number : List Char
deriving Repr, DecidableEq

def Number.new_international (number : List Char) : Number :=
  ⟨AddressType.International, number⟩

/-- The digit-pair loop of `Number::serialize_to_pdu`.  `seen` is a Rust
`u8` counter advanced by 2; in a debug build `seen += 2` panics when the
result would exceed 255 (`none`).  `bytes` indexing is always in range
at the call site (argued below), so `getD` never returns its default.
The `fuel` argument only drives structural recursion; it starts at
`original_len`, which bounds the iteration count, so the fuel-exhaustion
branch is unreachable. -/
def serialize_number_loop (bytes : List Nat) (original_len : Nat) (odd : Bool) :
    Nat → Nat → Option (List Nat)
  | 0, seen => if seen < original_len then none else some []
  | fuel + 1, seen =>
    if seen < original_len then
      let c1 : Nat :=
        if seen + 1 = original_len ∧ odd = true then 70  -- b'F' filler
        else bytes.getD (seen + 1) 0
      let c2 : Nat := bytes.getD seen 0
      if 256 ≤ seen + 2 then none  -- u8 overflow on `seen += 2` (debug panic)
      else (serialize_number_loop bytes original_len odd fuel (seen + 2)).map
        fun r => c1 :: c2 :: r
    else some []

/-- Embedding of `Number::serialize_to_pdu`: emits ASCII hex/digit characters into the
output buffer.  `self.number.len() as u8` truncates to `% 256`; the odd
increment `length += 1` is a `u8` add that panics (debug) at 255; a
non-International address type hits the `panic!` arm.  `none` models the
panic outcomes. -/
def Number.serialize_to_pdu (num : Number) : Option (List Nat) :=
  let original_len := num.number.length % 256
  let odd : Bool := original_len % 2 == 1
  if odd ∧ 256 ≤ original_len + 1 then none
  else
    let length := if odd then original_len + 1 else original_len
    match num.format with
    | .International =>
      (serialize_number_loop (num.number.map Char.toNat) original_len odd
        original_len 0).map
        fun pairs => u8_to_hex length ++ u8_to_hex 145 ++ pairs
    | .ShortCode => none  -- `panic!("serialization not supported ...")`

/-- Embedding of `str_from_decimal_octet`: push `data[1]`, then `data[0]` unless it is
`b'F'` (the odd-length filler nibble).  `take!(2)` guarantees exactly two
bytes; other shapes are unreachable (`none`). -/
def str_from_decimal_octet (data : List Nat) : Option (List Char) :=
  match data with
  | [a, b] =>
    some (if a ≠ 70 then [Char.ofNat b, Char.ofNat a] else [Char.ofNat b])
  | _ => none

/-- Embedding of `named!(decimal_octet<String>, map_res!(take!(2), str_from_decimal_octet))`. -/
def decimal_octet (input : List Nat) : PRes (List Char) :=
  mapRes (takeN 2) str_from_decimal_octet input

/-- Embedding of `concat_strings`: fold string concatenation (always `Ok`). -/
def concat_strings (data : List (List Char)) : Option (List Char) :=
  some data.flatten

/-- Embedding of `get_decimal_length`: digit count to octet count, rounding up (always
`Ok`). -/
def get_decimal_length (data : Nat) : Option Nat :=
  if data % 2 = 0 then some (data / 2) else some (data / 2 + 1)

/-- Embedding of `to_address_type`: 145 / 201 recognised, anything else is a
`ParseError`. -/
def to_address_type (data : Nat) : Option AddressType :=
  match data with
  | 145 => some AddressType.International
  | 201 => some AddressType.ShortCode
  | _ => none

/-- nom `count!(p, n)`: apply `p` exactly `n` times; failure of any
iteration propagates. -/
def countP {α : Type} (p : List Nat → PRes α) : Nat → List Nat → PRes (List α)
  | 0, input => .done input []
  | n + 1, input =>
    (p input).bind fun r v => (countP p n r).mapVal fun vs => v :: vs

/-- Embedding of `named_args!(decimal_octet_number(length: u8)<String>, ...)`:
`length` nibble-swapped digit pairs concatenated. -/
def decimal_octet_number (length : Nat) (input : List Nat) : PRes (List Char) :=
  mapRes (countP decimal_octet length) concat_strings input

/-- The sender-address segment of `parse_pdu`: a length octet interpreted
as a digit count (`get_decimal_length`), a type octet
(`to_address_type`), then that many digit pairs.  This composition of
the source parsers is the address decoder the round-trip claims are
about. -/
def decode_address (input : List Nat) : PRes (AddressType × List Char) :=
  (mapRes hex_octet get_decimal_length input).bind fun r1 n =>
  (mapRes hex_octet to_address_type r1).bind fun r2 ty =>
  (decimal_octet_number n r2).bind fun r3 s =>
  .done r3 (ty, s)

/-- The nibble-swapped digit-pair stream the serializer's loop emits: each
consecutive digit pair as (second, first), a final odd digit as
(filler `b'F'`, digit). -/
def pairs_of_digits : List Char → List Nat
  | [] => []
  | [d] => [70, d.toNat]
  | d1 :: d2 :: rest => d2.toNat :: d1.toNat :: pairs_of_digits rest

/-! ## User Data Header codec (`HeaderEntry`, `ConcatenatedMessage`,
`parse_concatenated_message`, `parse_length`, `parse_iei_reserved`,
`parse_user_header`, `Header`, `Header::parse_entries`) -/

structure HeaderEntry where
  tag : Nat
  data : List Nat
deriving Repr, DecidableEq

structure ConcatenatedMessage where
  reference_number : Nat
  number_of_messages : Nat
  sequence_number : Nat
deriving Repr, DecidableEq

/-- Embedding of `named!(parse_concatenated_message<ConcatenatedMessage>, ...)`: three
hex octets — reference number, total part count, sequence number. -/
def parse_concatenated_message (input : List Nat) : PRes ConcatenatedMessage :=
  (hex_octet input).bind fun r1 reference_number =>
  (hex_octet r1).bind fun r2 number_of_messages =>
  (hex_octet r2).bind fun r3 sequence_number =>
  .done r3 ⟨reference_number, number_of_messages, sequence_number⟩

structure Header where
  concatenated_message : Option ConcatenatedMessage
  entries : List HeaderEntry
deriving Repr, DecidableEq

def Header.new : Header := ⟨none, []⟩

def Header.set_entries (h : Header) (entries : List HeaderEntry) : Header :=
  { h with entries := entries }

/-- The loop body of `Header::parse_entries`.  `mem::replace` empties the
entry list; entries are then re-pushed in order except that a tag-0
entry whose payload parses as a `ConcatenatedMessage` only feeds
`concatenated_message.get_or_insert` (keeping an earlier value) and is
dropped (`continue`) from the retained list. -/
def parse_entries_go : List HeaderEntry → Option ConcatenatedMessage →
    List HeaderEntry → Header
  | [], cm, acc => ⟨cm, acc⟩
  | e :: rest, cm, acc =>
    if e.tag = 0 then
      match parse_concatenated_message e.data with
      | .done _ o => parse_entries_go rest (some (cm.getD o)) acc
      | _ => parse_entries_go rest cm (acc ++ [e])  -- failure logged, entry kept
    else parse_entries_go rest cm (acc ++ [e])

/-- Embedding of `Header::parse_entries`. -/
def Header.parse_entries (h : Header) : Header :=
  parse_entries_go h.entries h.concatenated_message []

/-- A header entry whose tag is 0 and whose payload parses as a
concatenated-message element. -/
def tag0_success (e : HeaderEntry) : Bool :=
  decide (e.tag = 0) && (parse_concatenated_message e.data).isDone

/-- The first well-formed tag-0 payload of an entry list. -/
def first_concat (l : List HeaderEntry) : Option ConcatenatedMessage :=
  l.findSome? fun e =>
    if e.tag = 0 then
      match parse_concatenated_message e.data with
      | .done _ o => some o
      | _ => none
    else none

/-- Embedding of `parse_length` lifted over `map_res!(take!(2), ...)`: a hex octet
doubled into a hex-character count.  The doubling is a `u8` multiply,
which panics (debug) when the octet is 128 or more. -/
def parse_length_octet (input : List Nat) : PRes Nat :=
  (takeN 2 input).bind fun r v =>
    match u8_from_hex_str v with
    | none => .perror
    | some l => if 256 ≤ 2 * l then .aborted else .done r (2 * l)

/-- nom `length_value!(f, g)`: `f` yields a byte count, that many bytes are
split off, and `g` runs on exactly that slice.  A shortfall is
`Incomplete`; an inner `Incomplete` on the already-complete slice is
reported as an error (nom semantics for a bounded sub-slice). -/
def lengthValue {α : Type} (f : List Nat → PRes Nat) (g : List Nat → PRes α)
    (input : List Nat) : PRes α :=
  (f input).bind fun r nb =>
    if r.length < nb then .incomplete (nb - r.length)
    else
      match g (r.take nb) with
      | .done _ o => .done (r.drop nb) o
      | .incomplete _ => .perror
      | .perror => .perror
      | .aborted => .aborted

/-- nom `many0!(p)`: repeat `p` until the input is empty or `p` errors;
an iteration that consumes nothing is rejected (nom's `Many0` error,
guarding the otherwise-infinite loop).  `fuel` starts above the input
length, so the fuel-exhaustion branch is unreachable. -/
def many0Go {α : Type} (p : List Nat → PRes α) :
    Nat → List Nat → List α → PRes (List α)
  | 0, _, _ => .perror
  | fuel + 1, input, acc =>
    if input.isEmpty then .done input acc.reverse
    else
      match p input with
      | .perror => .done input acc.reverse
      | .incomplete n => .incomplete n
      | .aborted => .aborted
      | .done rest o =>
        if rest.length < input.length then many0Go p fuel rest (o :: acc)
        else .perror

def many0 {α : Type} (p : List Nat → PRes α) (input : List Nat) : PRes (List α) :=
  many0Go p (input.length + 1) input []

/-- Embedding of `named!(parse_iei_reserved<HeaderEntry>, ...)`: a tag octet, then a
length-prefixed raw payload (`nom::rest` keeps the hex characters
verbatim; `to_vec` is the identity). -/
def parse_iei_reserved (input : List Nat) : PRes HeaderEntry :=
  (hex_octet input).bind fun r1 tag =>
  (lengthValue parse_length_octet (fun i => .done [] i) r1).bind fun r2 data =>
  .done r2 ⟨tag, data⟩

/-- Embedding of `named!(parse_user_header<Option<Header>>, ...)`: a length octet
covering all information elements, then `many0` elements. -/
def parse_user_header (input : List Nat) : PRes (Option Header) :=
  (lengthValue parse_length_octet (many0 parse_iei_reserved) input).bind
    fun r entries => .done r (some (Header.new.set_entries entries))

/-! ## Alphabet codec (`Encoding`, `GSM_MASKS`, `GSM_CHARS`,
`parse_gsm_alphabet`, `u8_vec_to_u16_vec`, `parse_utf16`) -/

inductive Encoding where
  | Gsm7Bit
  | Utf16
  | Unknown
deriving Repr, DecidableEq

/-- Embedding of `to_encoding_scheme`: data-coding-scheme octet 0 is the packed 7-bit
alphabet, 8 is UTF-16; anything else is a `ParseError`. -/
def to_encoding_scheme (data : Nat) : Option Encoding :=
  match data with
  | 0 => some Encoding.Gsm7Bit
  | 8 => some Encoding.Utf16
  | _ => none

/-- Embedding of `GSM_MASKS` from pdu.rs: entry `s` keeps the low `7 - s` bits (entry 7
is unused by the loop, which consumes no octet at step 7). -/
def GSM_MASKS : List Nat :=
  [0b01111111, 0b00111111, 0b00011111, 0b00001111,
   0b00000111, 0b00000011, 0b00000001, 0b11111111]

/-- Embedding of `GSM_CHARS` from pdu.rs: the 128-entry septet-to-character table. -/
def GSM_CHARS : List Char :=
  ['@',  '£',  '$',  '¥',  'è',  'é',  'ù',  'ì',  'ò',  'Ç', '\n',  'Ø',  'ø', '\r',  'Å',  'å',
   'Δ',  '_',  'Φ',  'Γ',  'Λ',  'Ω',  'Π',  'Ψ',  'Σ',  'Θ',  'Ξ',  '?',  'Æ',  'æ',  'ß',  'É',
   ' ',  '!',  '"',  '#',  '¤',  '%',  '&', '\'',  '(',  ')',  '*',  '+',  ',',  '-',  '.',  '/',
   '0',  '1',  '2',  '3',  '4',  '5',  '6',  '7',  '8',  '9',  ':',  ';',  '<',  '=',  '>',  '?',
   '¡',  'A',  'B',  'C',  'D',  'E',  'F',  'G',  'H',  'I',  'J',  'K',  'L',  'M',  'N',  'O',
   'P',  'Q',  'R',  'S',  'T',  'U',  'V',  'W',  'X',  'Y',  'Z',  'Ä',  'Ö',  'Ñ',  'Ü',  '§',
   '¿',  'a',  'b',  'c',  'd',  'e',  'f',  'g',  'h',  'i',  'j',  'k',  'l',  'm',  'n',  'o',
   'p',  'q',  'r',  's',  't',  'u',  'v',  'w',  'x',  'y',  'z',  'ä',  'ö',  'ñ',  'ü',  'à']

/-- The `while parsed_octets < length` loop of `parse_gsm_alphabet`.
The first argument is `length - parsed_octets` (one unit per emitted
character, structural recursion); `parsed` is the running character
counter whose `% 8` is the parse stage and `saved` the rolling carry.
A non-`Done` `hex_octet` hits the source's `.unwrap()` — a panic, not
a reported `Incomplete` — and an out-of-range `GSM_CHARS` index would be
a Rust index panic (`List.get?` returning `none`). -/
def gsm_loop : Nat → List Nat → Nat → Nat → PRes (List Char)
  | 0, rest, _, _ => .done rest []
  | n + 1, rest, saved, parsed =>
    let parse_stage := parsed % 8
    if parse_stage = 7 then
      match GSM_CHARS.get? saved with
      | some c => (gsm_loop n rest 0 (parsed + 1)).mapVal fun out => c :: out
      | none => .aborted
    else
      match hex_octet rest with
      | .done new_rest next_byte =>
        let character := (next_byte &&& GSM_MASKS.getD parse_stage 0) <<< parse_stage
        match GSM_CHARS.get? (character + saved) with
        | some c =>
          (gsm_loop n new_rest
            ((next_byte &&& ((GSM_MASKS.getD parse_stage 0) ^^^ 255)) >>> (7 - parse_stage))
            (parsed + 1)).mapVal fun out => c :: out
        | none => .aborted
      | _ => .aborted  -- `.unwrap()` on Error/Incomplete: process panic

/-- Embedding of `parse_gsm_alphabet(pdu_string, length)`: decode `length` characters
of the packed 7-bit alphabet from the hex-character stream. -/
def parse_gsm_alphabet (pdu_string : List Nat) (length : Nat) : PRes (List Char) :=
  gsm_loop length pdu_string 0 0

/-- Rust `str::encode_utf16` for one character: BMP scalars are one code
unit, supplementary characters a surrogate pair. -/
def encode_utf16_char (c : Nat) : List Nat :=
  if c < 0x10000 then [c]
  else [0xD800 + (c - 0x10000) / 0x400, 0xDC00 + (c - 0x10000) % 0x400]

/-- Rust `String::from_utf16`: rebuild scalars, rejecting lone or
misordered surrogates. -/
def string_from_utf16 : List Nat → Option (List Char)
  | [] => some []
  | u :: rest =>
    if u < 0xD800 ∨ 0xE000 ≤ u then
      (string_from_utf16 rest).map fun s => Char.ofNat u :: s
    else if u < 0xDC00 then
      match rest with
      | v :: rest2 =>
        if 0xDC00 ≤ v ∧ v < 0xE000 then
          (string_from_utf16 rest2).map
            fun s => Char.ofNat (0x10000 + (u - 0xD800) * 0x400 + (v - 0xDC00)) :: s
        else none
      | [] => none
    else none

/-- Embedding of `named!(u8_vec_to_u16_vec, many0!(map_res!(take!(4), u16_from_hex_str)))`. -/
def u8_vec_to_u16_vec (input : List Nat) : PRes (List Nat) :=
  many0 (mapRes (takeN 4) u16_from_hex_str) input

/-- Embedding of `parse_utf16(data, length)`: `length` is the octet count of the text,
`u16_len` the hex-character count.  A shortfall is reported as
`Incomplete` with the missing amount.  `to_result().unwrap()` on the
inner parser panics on any non-`Done` outcome. -/
def parse_utf16 (data : List Nat) (length : Nat) : PRes (List Char) :=
  let u16_len := length * 2
  if data.length < u16_len then .incomplete (u16_len - data.length)
  else
    match u8_vec_to_u16_vec (data.take u16_len) with
    | .done _ utf16_str =>
      match string_from_utf16 utf16_str with
      | some s => .done (data.drop u16_len) s
      | none => .perror  -- `ErrorKind::Custom(0)`
    | _ => .aborted

-- "hellohi" + '@' packed by hand: E8 32 9B FD 46 A7 01

/-! ## Timestamp codec (`parse_ascii_hex_number`, `parse_time_zone`,
`parse_date_time`) -/

/-- Embedding of `parse_ascii_hex_number`: table lookup from an ASCII byte to its hex
digit value; any unlisted byte maps to 0 with no error. -/
def parse_ascii_hex_number (data : Nat) : Nat :=
  match data with
  | 48 => 0 | 49 => 1 | 50 => 2 | 51 => 3 | 52 => 4
  | 53 => 5 | 54 => 6 | 55 => 7 | 56 => 8 | 57 => 9
  | 65 => 10 | 66 => 11 | 67 => 12 | 68 => 13 | 69 => 14 | 70 => 15
  | 97 => 10 | 98 => 11 | 99 => 12 | 100 => 13 | 101 => 14 | 102 => 15
  | _ => 0

/-- Embedding of `parse_time_zone(zero, one)`: bit 3 of `one` is the sign, its low three
bits the tens digit, `zero` the ones digit, in quarter-hours.  The source
works on `i32`; both inputs are hex-digit values 0..15, so `Nat`
bit-operations coincide. -/
def parse_time_zone (zero one : Nat) : Int :=
  if one &&& 0b1000 ≠ 0 then
    (-1) * ((10 * (one &&& 0b0111) : Nat) + (zero : Nat) : Int)
  else ((10 * one : Nat) + (zero : Nat) : Int)

/-- The six decoded timestamp fields plus the quarter-hour offset.  The
source converts these to a `chrono::DateTime<Utc>`; the claims under
verification concern only the parse/panic behaviour and the offset, so
the components are kept. -/
structure Timestamp where
  time_zone : Int  -- quarter-hours east
  year : Nat       -- two-digit year as decoded
  month : Nat
  day : Nat
  hour : Nat
  minute : Nat
  second : Nat
deriving Repr, DecidableEq

/-- One numeric field of chrono's `%y%m%d%H%M%S` parse: greedily one or
two ASCII digits. -/
def chrono_two_digits : List Char → Option (Nat × List Char)
  | c1 :: rest =>
    if c1.isDigit then
      match rest with
      | c2 :: rest2 =>
        if c2.isDigit then
          some ((c1.toNat - 48) * 10 + (c2.toNat - 48), rest2)
        else some (c1.toNat - 48, rest)
      | [] => some (c1.toNat - 48, [])
    else none
  | [] => none

/-- Gregorian leap year on the century chrono's `%y` implies
(00–68 → 20yy, 69–99 → 19yy). -/
def chrono_is_leap (yy : Nat) : Bool :=
  let y := if yy ≤ 68 then 2000 + yy else 1900 + yy
  (y % 4 == 0 && y % 100 != 0) || (y % 400 == 0)

def chrono_days_in_month (yy m : Nat) : Nat :=
  if m = 2 then (if chrono_is_leap yy then 29 else 28)
  else if m = 4 ∨ m = 6 ∨ m = 9 ∨ m = 11 then 30
  else 31

/-- Modelled from the spec: `chrono`'s
`FixedOffset::east(..).datetime_from_str(data, "%y%m%d%H%M%S")` (the
chrono crate is outside this repository).  Six numeric fields are read
greedily, the whole string must be consumed, and the fields must form a
valid calendar date-time (chrono accepts second 60 as a leap second);
otherwise the source's `Err` branch — `Error::ParseError` — is taken. -/
def chrono_datetime_from_str (data : List Char) :
    Option (Nat × Nat × Nat × Nat × Nat × Nat) :=
  (chrono_two_digits data).bind fun (y, r1) =>
  (chrono_two_digits r1).bind fun (m, r2) =>
  (chrono_two_digits r2).bind fun (d, r3) =>
  (chrono_two_digits r3).bind fun (hh, r4) =>
  (chrono_two_digits r4).bind fun (mi, r5) =>
  (chrono_two_digits r5).bind fun (ss, r6) =>
  if r6 = [] ∧ 1 ≤ m ∧ m ≤ 12 ∧ 1 ≤ d ∧ d ≤ chrono_days_in_month y m ∧
      hh ≤ 23 ∧ mi ≤ 59 ∧ ss ≤ 60 then
    some (y, m, d, hh, mi, ss)
  else none

/-- Embedding of `parse_date_time(tz_data, data)`: decode the timezone from the two raw
timezone bytes, then the date-time string; a chrono failure is
`Error::ParseError` (`none`).  `FixedOffset::east(time_zone * 900)` never
panics: `|time_zone| ≤ 85` quarter-hours, below the ±86400-second bound. -/
def parse_date_time (tz_data : List Nat) (data : List Char) : Option Timestamp :=
  let time_zone := parse_time_zone (parse_ascii_hex_number (tz_data.getD 0 0))
    (parse_ascii_hex_number (tz_data.getD 1 0))
  (chrono_datetime_from_str data).map fun (y, m, d, hh, mi, ss) =>
    ⟨time_zone, y, m, d, hh, mi, ss⟩

/-! ## Command information and message structures (`MessageType`,
`CommandInformation`, `to_command_information`, `UserData`,
`parse_user_data`, `parse_pdu`, `Message::from_string`) -/

inductive MessageType where
  | SmsDeliverReport
  | SmsDeliver
  | SmsSubmit
  | SmsSubmitReport
  | SmsCommand
  | SmsStatusReport
deriving Repr, DecidableEq

structure CommandInformation where
  message_type : MessageType
  more_messages_to_send : Bool
  has_udh : Bool
deriving Repr, DecidableEq

/-- Embedding of `to_command_information`: bits 0–1 select the message type (the error
arm is unreachable since `data & 0b11 ≤ 3`), bit 2 cleared means more
messages to send, bit 6 is the UDH flag. -/
def to_command_information (data : Nat) : Option CommandInformation :=
  (match data &&& 0b11 with
   | 0 => some MessageType.SmsDeliver
   | 1 => some MessageType.SmsDeliver
   | 2 => some MessageType.SmsSubmit
   | 3 => some MessageType.SmsCommand
   | _ => none).map fun message_type =>
    ⟨message_type, (data &&& 0b100) >>> 2 == 0, (data &&& 0b1000000) >>> 6 == 1⟩

structure UserData where
  encoding : Encoding
  data : List Char
  header : Option Header
deriving Repr, DecidableEq

def UserData.new_utf16 (data : List Char) : UserData :=
  ⟨Encoding.Utf16, data, none⟩

/-- Embedding of `parse_user_data(data, encoding, length, has_udh)`: optional header,
then the text body over the octet count remaining after the header.
`length as usize - parsed_octets` is a `usize` subtraction that panics
(debug) on underflow.  The `Unknown` branch is unreachable from
`parse_pdu` (`to_encoding_scheme` never yields it); its `format!`
placeholder string is not modelled, and its direct slice indexing
panics when the bounds are exceeded. -/
def parse_user_data (data : List Nat) (encoding : Encoding) (length : Nat)
    (has_udh : Bool) : PRes UserData :=
  let original_len := data.length
  (if has_udh then parse_user_header data else .done data none).bind
    fun remaining header =>
  let header := header.map Header.parse_entries
  let parsed_octets := (original_len - remaining.length) / 2
  match checkedSub length parsed_octets with
  | none => .aborted
  | some remaining_length =>
    match encoding with
    | .Gsm7Bit =>
      (parse_gsm_alphabet remaining remaining_length).mapVal
        fun parsed_data => ⟨Encoding.Gsm7Bit, parsed_data, header⟩
    | .Utf16 =>
      (parse_utf16 remaining remaining_length).mapVal
        fun parsed_data => ⟨Encoding.Utf16, parsed_data, header⟩
    | .Unknown =>
      if remaining_length ≤ remaining.length ∧ length ≤ data.length then
        .done (remaining.drop remaining_length)
          ⟨Encoding.Unknown, ['u','n','k','n','o','w','n'], header⟩
      else .aborted

structure Message where
  service_center : Number
  command_type : CommandInformation
  sender : Number
  time_stamp : Timestamp
  protocol_id : Nat
  user_data : UserData
deriving Repr, DecidableEq

/-- Embedding of `named!(pub parse_pdu<Message>, ...)`: the full SMS-DELIVER decode.
`sc_length - 1` is a `u8` subtraction (debug panic on underflow, modelled
by `checkedSub`), and the final
`parse_date_time(time_zone, time_stamp).unwrap()` panics when the
timestamp does not parse. -/
def parse_pdu (input : List Nat) : PRes Message :=
  (hex_octet input).bind fun r1 sc_length =>
  (mapRes hex_octet to_address_type r1).bind fun r2 sc_address_type =>
  (match checkedSub sc_length 1 with
   | none => (.aborted : PRes (List Char))
   | some n => decimal_octet_number n r2).bind fun r3 service_center =>
  (mapRes hex_octet to_command_information r3).bind fun r4 message_type =>
  (mapRes hex_octet get_decimal_length r4).bind fun r5 sender_length =>
  (mapRes hex_octet to_address_type r5).bind fun r6 sender_address_type =>
  (decimal_octet_number sender_length r6).bind fun r7 sender =>
  (hex_octet r7).bind fun r8 protocol_id =>
  (mapRes hex_octet to_encoding_scheme r8).bind fun r9 encoding_scheme =>
  (decimal_octet_number 6 r9).bind fun r10 time_stamp =>
  (takeN 2 r10).bind fun r11 time_zone =>
  (hex_octet r11).bind fun r12 ud_length =>
  (parse_user_data r12 encoding_scheme ud_length message_type.has_udh).bind
    fun r13 user_data =>
  match parse_date_time time_zone time_stamp with
  | none => .aborted  -- `.unwrap()` on the `Err` from `parse_date_time`
  | some ts =>
    .done r13 ⟨⟨sc_address_type, service_center⟩, message_type,
      ⟨sender_address_type, sender⟩, ts, protocol_id, user_data⟩

inductive FromStringResult where
  | ok (m : Message)
  | err  -- `Err(())`, returned for both `Error` and `Incomplete`
  | aborted
deriving Repr, DecidableEq

/-- Embedding of `Message::from_string`: `Done` is `Ok`; both `Error` and `Incomplete`
collapse to `Err(())`; a panic inside `parse_pdu` propagates. -/
def Message.from_string (pdu_string : List Nat) : FromStringResult :=
  match parse_pdu pdu_string with
  | .done _ m => .ok m
  | .perror => .err
  | .incomplete _ => .err
  | .aborted => .aborted

/-! ## SMS-SUBMIT encode (`ValidityPeriod`, `UserData::serialize_to_pdu`,
`MessageSubmit::new`, `MessageSubmit::new_default`,
`MessageSubmit::serialize_to_pdu`) -/

inductive ValidityPeriod where
  | Relative (n : Nat)  -- only relative validity periods exist in the source
deriving Repr, DecidableEq

/-- Embedding of `UserData::serialize_to_pdu`: asserts no header and UTF-16 encoding
(`none` models the failed `assert!`), then emits each UTF-16 code unit
as two hex octets, preceded by a length octet counting encoded bytes
(`length as u8` truncates at 128 code units and beyond). -/
def UserData.serialize_to_pdu (ud : UserData) : Option (List Nat) :=
  if ud.header ≠ none then none
  else if ud.encoding ≠ Encoding.Utf16 then none
  else
    let units := (ud.data.map Char.toNat).flatMap encode_utf16_char
    let intermediate_output :=
      units.flatMap fun byte => u8_to_hex (byte >>> 8) ++ u8_to_hex (byte &&& 0b11111111)
    let length := 2 * units.length
    some (u8_to_hex (length % 256) ++ intermediate_output)

structure MessageSubmit where
  command_type : CommandInformation
  reject_duplicates : Bool
  message_reference : Nat
  destination_address : Number
  protocol_id : Nat
  user_data : UserData
deriving Repr, DecidableEq

/-- Embedding of `MessageSubmit::new`: four `assert!`s reject anything but
`Relative(255)`, no status report, no reply path, UTF-16 user data.
A failed `assert!` is a process abort (`none`); there is no error-return
path. -/
def MessageSubmit.new (reject_duplicates : Bool) (validity_period : ValidityPeriod)
    (status_report_request : Bool) (reply_path : Bool)
    (destination_address : Number) (protocol_id : Nat) (user_data : UserData) :
    Option MessageSubmit :=
  if validity_period ≠ ValidityPeriod.Relative 255 then none
  else if status_report_request then none
  else if reply_path then none
  else if user_data.encoding ≠ Encoding.Utf16 then none
  else
    some ⟨⟨MessageType.SmsSubmit, false, false⟩, reject_duplicates, 0,
      destination_address, protocol_id, user_data⟩

/-- Embedding of `MessageSubmit::new_default`. -/
def MessageSubmit.new_default (reject_duplicates status_report_request : Bool)
    (destination_address : Number) (user_data : UserData) : Option MessageSubmit :=
  MessageSubmit.new reject_duplicates (ValidityPeriod.Relative 255)
    status_report_request false destination_address 0 user_data

/-- Embedding of `MessageSubmit::serialize_to_pdu`: first octet `0b00_01_00_01` plus the
reject-duplicates bit, a zero message reference, the destination
address, the protocol id, data coding scheme 8, validity period 0xFF,
then the user data (whose own panics, and the address panic arm,
propagate). -/
def MessageSubmit.serialize_to_pdu (ms : MessageSubmit) : Option (List Nat) :=
  let first_octet := if ms.reject_duplicates then 0b00010001 ||| (1 <<< 2) else 0b00010001
  (ms.destination_address.serialize_to_pdu).bind fun addr =>
  (ms.user_data.serialize_to_pdu).map fun ud =>
  u8_to_hex first_octet ++ u8_to_hex 0 ++ addr ++
    u8_to_hex (ms.protocol_id % 256) ++ u8_to_hex 8 ++ u8_to_hex 0xFF ++ ud

/-! ## Hardware frame-buffer backend (`FrameBuffer`, `dimensions`,
`write_pixel`) -/

/-- One colour channel of the Linux `var_screen_info`: bit `length` and
bit `offset` as queried from the device. -/
structure ChannelBits where
  length : Nat
  offset : Nat
deriving Repr, DecidableEq

structure VarScreenData where
  red : ChannelBits
  green : ChannelBits
  blue : ChannelBits
deriving Repr, DecidableEq

/-- The `FrameBuffer` state: the shadow frame plus the geometry captured
from the device at `new` (`frame.len() = line_length * height`). -/
structure FrameBuffer where
  var_data : VarScreenData
  frame : List Nat
  line_length : Nat
  bytes_per_pixel : Nat
  width : Nat
  height : Nat
deriving Repr, DecidableEq

/-- Modelled from the spec: the `Color` type lives in `display/base.rs`,
which is not part of the sources; per the spec it carries a red/green/blue
intensity triple and an opacity value in `[0,1]` (a float, modelled as a
rational; `1.0` is exactly representable, so the `opacity() != 1.0` test
is exact). -/
structure Color where
  red : Nat
  green : Nat
  blue : Nat
  opacity : ℚ
deriving Repr, DecidableEq

def FrameBuffer.dimensions (fb : FrameBuffer) : Nat × Nat := (fb.width, fb.height)

/-- The byte-store loop of `write_pixel`: `bytes_per_pixel` bytes of the
packed pixel, low byte first; a store past the end of `frame` is a Rust
index panic (`none`). -/
def write_pixel_bytes : List Nat → Nat → Nat → Nat → Option (List Nat)
  | frame, _, _, 0 => some frame
  | frame, pixel_index, pixel, n + 1 =>
    if pixel_index < frame.length then
      write_pixel_bytes (frame.set pixel_index (pixel &&& 255)) (pixel_index + 1)
        (pixel >>> 8) n
    else none

/-- Embedding of `FrameBuffer::write_pixel`: skip non-opaque pixels; explicitly panic
when the linear byte index `y * line_length + x * bytes_per_pixel` is
outside the frame; otherwise pack the channels (the `8 - length` is a
`u32` subtraction that panics on a channel wider than 8 bits, and a
shift by 64 or more panics on u64) and store the pixel bytes.  `none`
models every panic. -/
def FrameBuffer.write_pixel (fb : FrameBuffer) (x y : Nat) (color : Color) :
    Option FrameBuffer :=
  if color.opacity ≠ 1 then some fb
  else
    let pixel_index := y * fb.line_length + x * fb.bytes_per_pixel
    if fb.frame.length ≤ pixel_index then none
    else if 8 < fb.var_data.red.length ∨ 8 < fb.var_data.green.length ∨
        8 < fb.var_data.blue.length ∨ 64 ≤ fb.var_data.red.offset ∨
        64 ≤ fb.var_data.green.offset ∨ 64 ≤ fb.var_data.blue.offset then none
    else
      let pixel : Nat :=
        (((color.red >>> (8 - fb.var_data.red.length)) <<< fb.var_data.red.offset) |||
         ((color.green >>> (8 - fb.var_data.green.length)) <<< fb.var_data.green.offset) |||
         ((color.blue >>> (8 - fb.var_data.blue.length)) <<< fb.var_data.blue.offset)) % 2 ^ 64
      (write_pixel_bytes fb.frame pixel_index pixel fb.bytes_per_pixel).map
        fun fr => { fb with frame := fr }

/-- Truncation behaviour of a parser: whenever `p` succeeds on `full`
(consuming `c` bytes and leaving the suffix `full.drop c`), running `p` on
any truncation of `full` strictly inside the consumed region reports the
incomplete-input outcome, and on any truncation at or beyond it succeeds
with the same value.  The predicate `good` restricts which successful
results the property is asserted for (used to exclude the panicking
GSM-7 body). -/
def PrefixP {α : Type} (p : List Nat → PRes α) (good : α → Prop) : Prop :=
  ∀ full rest v, p full = .done rest v → good v →
    ∃ c, c ≤ full.length ∧ rest = full.drop c ∧
      ∀ j, j ≤ full.length →
        (j < c → ∃ n, p (full.take j) = .incomplete n) ∧
        (c ≤ j → p (full.take j) = .done ((full.take j).drop c) v)

/-! ## Shared lemmas -/

theorem u8_to_hex_length (b : Nat) : (u8_to_hex b).length = 2 := by
  simp [u8_to_hex]

set_option maxRecDepth 4000 in
theorem u8_from_hex_str_u8_to_hex : ∀ b < 256, u8_from_hex_str (u8_to_hex b) = some b := by
  decide

/-- A hex octet emitted by `u8_to_hex` parses back to the same byte,
leaving the remaining input untouched. -/
theorem hex_octet_u8_to_hex (b : Nat) (hb : b < 256) (r : List Nat) :
    hex_octet (u8_to_hex b ++ r) = .done r b := by
  have h2 : (u8_to_hex b).length = 2 := u8_to_hex_length b
  have hlen : (u8_to_hex b ++ r).length = 2 + r.length := by simp [h2]
  have htake : (u8_to_hex b ++ r).take 2 = u8_to_hex b := by
    rw [← h2]; exact List.take_left _ _
  have hdrop : (u8_to_hex b ++ r).drop 2 = r := by
    rw [← h2]; exact List.drop_left _ _
  have htk : takeN 2 (u8_to_hex b ++ r) = .done r (u8_to_hex b) := by
    simp only [takeN, hlen]
    rw [if_neg (by omega), htake, hdrop]
  simp [hex_octet, mapRes, htk, u8_from_hex_str_u8_to_hex b hb]

/-! ## Claim C2 — MessageSubmit construction with unsupported options -/

/-- C2 (counterexample): constructing a `MessageSubmit` with a requested
status report does not return a recoverable `UnsupportedFeature` error:
the `assert!` fails and the process aborts (`none` in this model), so
the claim's "does not abort the process" is false on the code. -/
theorem claim2_counterexample :
    MessageSubmit.new false (ValidityPeriod.Relative 255) true false
      (Number.new_international ['1','2']) 0 (UserData.new_utf16 ['H','i']) = none := by
  decide

/-- C2 (amended): constructing a `MessageSubmit` with any option outside
the supported combination — a validity period other than `Relative(255)`,
a requested status report, a requested reply path, or a non-UTF-16 body
— makes one of the constructor's `assert!`s fail, aborting the process;
no `MessageSubmit` value exists afterwards, so no output bytes are ever
produced. -/
theorem claim2_amended_submit_unsupported_aborts
    (rd : Bool) (vp : ValidityPeriod) (srr rp : Bool) (dest : Number)
    (pid : Nat) (ud : UserData)
    (h : vp ≠ ValidityPeriod.Relative 255 ∨ srr = true ∨ rp = true ∨
      ud.encoding ≠ Encoding.Utf16) :
    MessageSubmit.new rd vp srr rp dest pid ud = none := by
  unfold MessageSubmit.new
  rcases h with h | h | h | h
  · rw [if_pos h]
  · rcases Decidable.em (vp = ValidityPeriod.Relative 255) with hv | hv
    · rw [if_neg (by simp [hv]), if_pos h]
    · rw [if_pos hv]
  · rcases Decidable.em (vp = ValidityPeriod.Relative 255) with hv | hv
    · rcases Bool.eq_false_or_eq_true srr with hs | hs
      · rw [if_neg (by simp [hv]), if_pos hs]
      · rw [if_neg (by simp [hv]), if_neg (by simp [hs]), if_pos h]
    · rw [if_pos hv]
  · rcases Decidable.em (vp = ValidityPeriod.Relative 255) with hv | hv
    · rcases Bool.eq_false_or_eq_true srr with hs | hs
      · rw [if_neg (by simp [hv]), if_pos hs]
      · rcases Bool.eq_false_or_eq_true rp with hr | hr
        · rw [if_neg (by simp [hv]), if_neg (by simp [hs]), if_pos hr]
        · rw [if_neg (by simp [hv]), if_neg (by simp [hs]), if_neg (by simp [hr]),
            if_pos h]
    · rw [if_pos hv]

/-- C2 witness: the amended theorem applied to a concrete unsupported
combination (validity period `Relative(100)`). -/
theorem claim2_witness :
    MessageSubmit.new true (ValidityPeriod.Relative 100) false false
      (Number.new_international ['5']) 0 (UserData.new_utf16 ['x']) = none :=
  claim2_amended_submit_unsupported_aborts true (ValidityPeriod.Relative 100)
    false false (Number.new_international ['5']) 0 (UserData.new_utf16 ['x'])
    (Or.inl (by decide))

/-! ## Claim C5 — malformed timestamp handling -/

/-- C5: on a PDU whose timestamp digit-pairs give month 99 — not a valid
calendar date-time — `parse_pdu` does not return the `ParseError` that
`parse_date_time` produced: the `.unwrap()` in the `Message` constructor
panics, so `Message::from_string` never sees an `Err`.  The whole-input
evaluation below exhibits the panic outcome. -/
theorem claim5_timestamp_panic :
    parse_pdu (("02912104049121430008" ++ "529910210000" ++ "00" ++ "00").toList.map
      Char.toNat) = .aborted ∧
    Message.from_string (("02912104049121430008" ++ "529910210000" ++ "00" ++ "00").toList.map
      Char.toNat) = .aborted := by
  constructor
  · decide
  · decide

/-! ## Claim C6 — incomplete-input signalling -/

/-- C6 (counterexample): the 7-bit-alphabet body does not raise the
incomplete-input signal when it needs more bytes than remain: the
`hex_octet(rest).unwrap()` panics instead, both at the
`parse_gsm_alphabet` stage and through a whole PDU truncated inside a
GSM-7 body. -/
theorem claim6_counterexample :
    parse_gsm_alphabet [] 1 = .aborted ∧
    (parse_gsm_alphabet [] 1).isIncomplete = false ∧
    parse_pdu (("02912104049121430000" ++ "520110210000" ++ "00" ++ "01").toList.map
      Char.toNat) = .aborted := by
  refine ⟨by decide, by decide, by decide⟩

/-! ## Truncation lemmas for the incomplete-input claim -/

theorem prefixP_congr {α : Type} (p q : List Nat → PRes α) (good : α → Prop)
    (hpq : ∀ i, p i = q i) (hq : PrefixP q good) : PrefixP p good := by
  intro full rest v hdone hg
  obtain ⟨c, hc, hrest, hj⟩ := hq full rest v (by rw [← hpq]; exact hdone) hg
  refine ⟨c, hc, hrest, ?_⟩
  intro j hle
  refine ⟨?_, ?_⟩
  · intro hlt
    obtain ⟨n, hn⟩ := (hj j hle).1 hlt
    exact ⟨n, by rw [hpq]; exact hn⟩
  · intro hge
    rw [hpq]
    exact (hj j hle).2 hge

theorem prefixP_of_indep {α : Type} (p : List Nat → PRes α) (good : α → Prop)
    (h : (∀ i r v, ¬ p i = .done r v) ∨ ∃ w, ∀ i, p i = .done i w) :
    PrefixP p good := by
  intro full rest v hdone _
  rcases h with h | ⟨w, hw⟩
  · exact absurd hdone (h full rest v)
  · rw [hw full] at hdone
    injection hdone with h1 h2
    refine ⟨0, Nat.zero_le _, by rw [List.drop_zero]; exact h1.symm, ?_⟩
    intro j hle
    refine ⟨fun hlt => absurd hlt (by omega), fun _ => ?_⟩
    rw [hw (full.take j), List.drop_zero, h2]

theorem prefixP_takeN (n : Nat) : PrefixP (takeN n) (fun _ => True) := by
  intro full rest v hdone _
  simp only [takeN] at hdone
  rcases Decidable.em (full.length < n) with hlt | hge
  · rw [if_pos hlt] at hdone
    exact PRes.noConfusion hdone
  · rw [if_neg hge] at hdone
    injection hdone with h1 h2
    refine ⟨n, by omega, h1.symm, ?_⟩
    intro j hle
    have hlj : (full.take j).length = min j full.length := by simp [List.length_take]
    constructor
    · intro hjlt
      refine ⟨n, ?_⟩
      simp only [takeN, hlj]
      rw [if_pos (by omega)]
    · intro hjge
      simp only [takeN, hlj]
      rw [if_neg (by omega)]
      rw [List.take_take, Nat.min_eq_left hjge, h2]

theorem prefixP_mapVal {α β : Type} (p : List Nat → PRes α) (f : α → β)
    (good : β → Prop) (hp : PrefixP p (fun _ => True)) :
    PrefixP (fun i => (p i).mapVal f) good := by
  intro full rest w hdone _
  beta_reduce at hdone ⊢
  cases hpres : p full with
  | done r1 v =>
    rw [hpres] at hdone
    simp only [PRes.mapVal] at hdone
    injection hdone with h1 h2
    obtain ⟨c, hc, hr1, hj1⟩ := hp full r1 v hpres trivial
    refine ⟨c, hc, by rw [← h1]; exact hr1, ?_⟩
    intro j hle
    constructor
    · intro hlt
      obtain ⟨n, hn⟩ := (hj1 j hle).1 hlt
      refine ⟨n, ?_⟩
      rw [hn]
      rfl
    · intro hge
      rw [(hj1 j hle).2 hge]
      simp only [PRes.mapVal, h2]
  | perror => rw [hpres] at hdone; simp [PRes.mapVal] at hdone
  | incomplete n => rw [hpres] at hdone; simp [PRes.mapVal] at hdone
  | aborted => rw [hpres] at hdone; simp [PRes.mapVal] at hdone

theorem prefixP_mapRes {α β : Type} (p : List Nat → PRes α) (g : α → Option β)
    (good : β → Prop) (hp : PrefixP p (fun _ => True)) :
    PrefixP (mapRes p g) good := by
  intro full rest w hdone _
  cases hpres : p full with
  | done r1 v =>
    simp only [mapRes, hpres] at hdone
    cases hg : g v with
    | none => simp only [hg] at hdone; exact PRes.noConfusion hdone
    | some b =>
      simp only [hg] at hdone
      injection hdone with h1 h2
      obtain ⟨c, hc, hr1, hj1⟩ := hp full r1 v hpres trivial
      refine ⟨c, hc, by rw [← h1]; exact hr1, ?_⟩
      intro j hle
      constructor
      · intro hlt
        obtain ⟨n, hn⟩ := (hj1 j hle).1 hlt
        refine ⟨n, ?_⟩
        simp only [mapRes, hn]
      · intro hge
        simp only [mapRes, (hj1 j hle).2 hge, hg, h2]
  | perror => simp [mapRes, hpres] at hdone
  | incomplete n => simp [mapRes, hpres] at hdone
  | aborted => simp [mapRes, hpres] at hdone

theorem prefixP_bind {α β : Type} (p : List Nat → PRes α) (k : α → List Nat → PRes β)
    (good : β → Prop) (hp : PrefixP p (fun _ => True))
    (hk : ∀ v, PrefixP (k v) good) :
    PrefixP (fun input => (p input).bind fun r v => k v r) good := by
  intro full rest w hdone hgood
  beta_reduce at hdone ⊢
  cases hpres : p full with
  | done r1 v =>
    rw [hpres] at hdone
    simp only [PRes.bind] at hdone
    obtain ⟨c1, hc1, hr1, hj1⟩ := hp full r1 v hpres trivial
    obtain ⟨c2, hc2, hr2, hj2⟩ := hk v r1 rest w hdone hgood
    have hlenr1 : r1.length = full.length - c1 := by rw [hr1, List.length_drop]
    refine ⟨c1 + c2, by omega, by rw [hr2, hr1, List.drop_drop], ?_⟩
    intro j hle
    have hslice : (full.take j).drop c1 = r1.take (j - c1) := by
      rw [List.drop_take, hr1]
    constructor
    · intro hlt
      rcases Decidable.em (j < c1) with h1 | h1
      · obtain ⟨n, hn⟩ := (hj1 j hle).1 h1
        refine ⟨n, ?_⟩
        rw [hn]
        rfl
      · obtain ⟨n, hn⟩ := (hj2 (j - c1) (by omega)).1 (by omega)
        refine ⟨n, ?_⟩
        rw [(hj1 j hle).2 (by omega)]
        simp only [PRes.bind]
        rw [hslice]
        exact hn
    · intro hge
      have hdd : (r1.take (j - c1)).drop c2 = (full.take j).drop (c1 + c2) := by
        rw [← List.drop_drop, hslice]
      rw [(hj1 j hle).2 (by omega)]
      simp only [PRes.bind]
      rw [hslice, (hj2 (j - c1) (by omega)).2 (by omega), hdd]
  | perror => rw [hpres] at hdone; simp [PRes.bind] at hdone
  | incomplete n => rw [hpres] at hdone; simp [PRes.bind] at hdone
  | aborted => rw [hpres] at hdone; simp [PRes.bind] at hdone

theorem prefixP_hex_octet : PrefixP hex_octet (fun _ => True) :=
  prefixP_mapRes (takeN 2) u8_from_hex_str (fun _ => True) (prefixP_takeN 2)

theorem prefixP_decimal_octet : PrefixP decimal_octet (fun _ => True) :=
  prefixP_mapRes (takeN 2) str_from_decimal_octet (fun _ => True) (prefixP_takeN 2)

theorem prefixP_countP {α : Type} (p : List Nat → PRes α)
    (hp : PrefixP p (fun _ => True)) :
    ∀ n, PrefixP (countP p n) (fun _ => True)
  | 0 => prefixP_of_indep _ _ (Or.inr ⟨[], fun i => rfl⟩)
  | n + 1 =>
    prefixP_congr _ _ _ (fun i => rfl)
      (prefixP_bind p (fun v r => (countP p n r).mapVal fun vs => v :: vs)
        (fun _ => True) hp
        (fun v => prefixP_mapVal (countP p n) (fun vs => v :: vs) (fun _ => True)
          (prefixP_countP p hp n)))

theorem prefixP_decimal_octet_number (n : Nat) :
    PrefixP (decimal_octet_number n) (fun _ => True) :=
  prefixP_mapRes (countP decimal_octet n) concat_strings (fun _ => True)
    (prefixP_countP decimal_octet prefixP_decimal_octet n)

theorem prefixP_parse_length_octet : PrefixP parse_length_octet (fun _ => True) := by
  refine prefixP_congr _ _ _ (fun i => rfl)
    (prefixP_bind (takeN 2)
      (fun v r => match u8_from_hex_str v with
        | none => PRes.perror
        | some l => if 256 ≤ 2 * l then PRes.aborted else PRes.done r (2 * l))
      (fun _ => True) (prefixP_takeN 2) ?_)
  intro v
  cases hu : u8_from_hex_str v with
  | none =>
    refine prefixP_of_indep _ _ (Or.inl ?_)
    intro i r w h
    simp [hu] at h
  | some l =>
    rcases Decidable.em (256 ≤ 2 * l) with hle | hle
    · refine prefixP_of_indep _ _ (Or.inl ?_)
      intro i r w h
      simp [hu, hle] at h
    · refine prefixP_of_indep _ _ (Or.inr ⟨2 * l, ?_⟩)
      intro i
      simp [hu, hle]

theorem prefixP_lengthValue {α : Type} (f : List Nat → PRes Nat) (g : List Nat → PRes α)
    (hf : PrefixP f (fun _ => True)) :
    PrefixP (lengthValue f g) (fun _ => True) := by
  intro full rest w hdone _
  cases hfres : f full with
  | done r1 nb =>
    simp only [lengthValue, hfres, PRes.bind] at hdone
    rcases Decidable.em (r1.length < nb) with hsh | hsh
    · rw [if_pos hsh] at hdone
      exact PRes.noConfusion hdone
    · rw [if_neg hsh] at hdone
      cases hg : g (r1.take nb) with
      | done rg og =>
        simp only [hg] at hdone
        injection hdone with h1 h2
        obtain ⟨c1, hc1, hr1, hj1⟩ := hf full r1 nb hfres trivial
        have hlenr1 : r1.length = full.length - c1 := by rw [hr1, List.length_drop]
        refine ⟨c1 + nb, by omega, by rw [← h1, hr1, List.drop_drop], ?_⟩
        intro j hle
        have hslice : (full.take j).drop c1 = r1.take (j - c1) := by
          rw [List.drop_take, hr1]
        have hlen2 : (r1.take (j - c1)).length = min (j - c1) r1.length := by
          simp [List.length_take]
        constructor
        · intro hlt
          rcases Decidable.em (j < c1) with h1' | h1'
          · obtain ⟨n, hn⟩ := (hj1 j hle).1 h1'
            refine ⟨n, ?_⟩
            simp only [lengthValue, hn, PRes.bind]
          · refine ⟨nb - (j - c1), ?_⟩
            have hfj := (hj1 j hle).2 (by omega)
            have hlen3 : (r1.take (j - c1)).length = j - c1 := by rw [hlen2]; omega
            simp only [lengthValue, hfj, PRes.bind, hslice, hlen3]
            rw [if_pos (by omega)]
        · intro hge
          have hfj := (hj1 j hle).2 (by omega)
          have hlen3 : (r1.take (j - c1)).length = j - c1 := by rw [hlen2]; omega
          have htt : (r1.take (j - c1)).take nb = r1.take nb := by
            rw [List.take_take, Nat.min_eq_left (by omega)]
          have hdd : (r1.take (j - c1)).drop nb = (full.take j).drop (c1 + nb) := by
            rw [← List.drop_drop, hslice]
          simp only [lengthValue, hfj, PRes.bind, hslice, hlen3]
          rw [if_neg (by omega)]
          simp only [htt, hg, hdd, h2]
      | perror => simp only [hg] at hdone; exact PRes.noConfusion hdone
      | incomplete m => simp only [hg] at hdone; exact PRes.noConfusion hdone
      | aborted => simp only [hg] at hdone; exact PRes.noConfusion hdone
  | perror => simp [lengthValue, hfres, PRes.bind] at hdone
  | incomplete n => simp [lengthValue, hfres, PRes.bind] at hdone
  | aborted => simp [lengthValue, hfres, PRes.bind] at hdone

theorem prefixP_parse_user_header : PrefixP parse_user_header (fun _ => True) := by
  refine prefixP_congr _ _ _ (fun i => rfl)
    (prefixP_bind (lengthValue parse_length_octet (many0 parse_iei_reserved))
      (fun entries r => PRes.done r (some (Header.new.set_entries entries)))
      (fun _ => True)
      (prefixP_lengthValue _ _ prefixP_parse_length_octet) ?_)
  intro entries
  exact prefixP_of_indep _ _
    (Or.inr ⟨some (Header.new.set_entries entries), fun i => rfl⟩)

theorem prefixP_parse_utf16 (L : Nat) :
    PrefixP (fun data => parse_utf16 data L) (fun _ => True) := by
  intro full rest v hdone _
  beta_reduce at hdone ⊢
  simp only [parse_utf16] at hdone
  rcases Decidable.em (full.length < L * 2) with hsh | hsh
  · rw [if_pos hsh] at hdone
    exact PRes.noConfusion hdone
  · rw [if_neg hsh] at hdone
    cases hvec : u8_vec_to_u16_vec (full.take (L * 2)) with
    | done rv us =>
      simp only [hvec] at hdone
      cases hstr : string_from_utf16 us with
      | some s =>
        simp only [hstr] at hdone
        injection hdone with h1 h2
        refine ⟨L * 2, by omega, h1.symm, ?_⟩
        intro j hle
        have hlj : (full.take j).length = j := by simp [List.length_take]; omega
        constructor
        · intro hlt
          refine ⟨L * 2 - j, ?_⟩
          simp only [parse_utf16, hlj]
          rw [if_pos hlt]
        · intro hge
          have htt : (full.take j).take (L * 2) = full.take (L * 2) := by
            rw [List.take_take, Nat.min_eq_left hge]
          simp only [parse_utf16, hlj]
          rw [if_neg (by omega), htt]
          simp only [hvec, hstr, h2]
      | none => simp only [hstr] at hdone; exact PRes.noConfusion hdone
    | perror => simp only [hvec] at hdone; exact PRes.noConfusion hdone
    | incomplete m => simp only [hvec] at hdone; exact PRes.noConfusion hdone
    | aborted => simp only [hvec] at hdone; exact PRes.noConfusion hdone

theorem parse_user_data_utf16_false (L : Nat) (data : List Nat) :
    parse_user_data data Encoding.Utf16 L false =
      (parse_utf16 data L).mapVal fun pd => ⟨Encoding.Utf16, pd, none⟩ := by
  simp [parse_user_data, PRes.bind, checkedSub]

theorem parse_user_data_utf16_header (L : Nat) (d rem : List Nat) (h0 : Option Header)
    (hd : parse_user_header d = .done rem h0) :
    parse_user_data d Encoding.Utf16 L true =
      (match checkedSub L ((d.length - rem.length) / 2) with
       | none => PRes.aborted
       | some rem_len =>
         (parse_utf16 rem rem_len).mapVal
           fun pd => ⟨Encoding.Utf16, pd, h0.map Header.parse_entries⟩) := by
  simp [parse_user_data, hd, PRes.bind]

theorem parse_user_data_header_incomplete (e : Encoding) (L : Nat) (d : List Nat) (m : Nat)
    (hd : parse_user_header d = .incomplete m) :
    parse_user_data d e L true = .incomplete m := by
  simp [parse_user_data, hd, PRes.bind]

theorem prefixP_parse_user_data_utf16 (L : Nat) (udh : Bool) :
    PrefixP (fun data => parse_user_data data Encoding.Utf16 L udh)
      (fun _ => True) := by
  cases udh with
  | false =>
    exact prefixP_congr _ _ _ (fun i => parse_user_data_utf16_false L i)
      (prefixP_mapVal (fun data => parse_utf16 data L)
        (fun pd => (⟨Encoding.Utf16, pd, none⟩ : UserData)) (fun _ => True)
        (prefixP_parse_utf16 L))
  | true =>
    intro full rest v hdone _
    beta_reduce at hdone ⊢
    cases hh : parse_user_header full with
    | done remaining hdr0 =>
      obtain ⟨ch, hch, hremeq, hjh⟩ :=
        prefixP_parse_user_header full remaining hdr0 hh trivial
      have hlenrem : remaining.length = full.length - ch := by
        rw [hremeq, List.length_drop]
      have hsub : full.length - remaining.length = ch := by omega
      rw [parse_user_data_utf16_header L full remaining hdr0 hh, hsub] at hdone
      cases hcs : checkedSub L (ch / 2) with
      | none => simp only [hcs] at hdone; exact PRes.noConfusion hdone
      | some remL =>
        simp only [hcs] at hdone
        cases hpu : parse_utf16 remaining remL with
        | done rest2 s =>
          rw [hpu] at hdone
          simp only [PRes.mapVal] at hdone
          injection hdone with hinj1 hinj2
          obtain ⟨cu, hcu, hrest2, hju⟩ :=
            prefixP_parse_utf16 remL remaining rest2 s hpu trivial
          beta_reduce at hju
          refine ⟨ch + cu, by omega, by rw [← hinj1, hrest2, hremeq, List.drop_drop], ?_⟩
          intro j hle
          have hlj : (full.take j).length = j := by simp [List.length_take]; omega
          have hslice : (full.take j).drop ch = remaining.take (j - ch) := by
            rw [List.drop_take, hremeq]
          constructor
          · intro hlt
            rcases Decidable.em (j < ch) with hj1 | hj1
            · obtain ⟨n, hn⟩ := (hjh j hle).1 hj1
              exact ⟨n, parse_user_data_header_incomplete Encoding.Utf16 L _ n hn⟩
            · have hhj := (hjh j hle).2 (by omega)
              have hsub2 : (full.take j).length - ((full.take j).drop ch).length = ch := by
                simp [List.length_drop, hlj]; omega
              obtain ⟨n, hn⟩ := (hju (j - ch) (by omega)).1 (by omega)
              refine ⟨n, ?_⟩
              rw [parse_user_data_utf16_header L (full.take j) ((full.take j).drop ch)
                hdr0 hhj, hsub2]
              simp only [hcs, hslice, hn, PRes.mapVal]
          · intro hge
            have hhj := (hjh j hle).2 (by omega)
            have hsub2 : (full.take j).length - ((full.take j).drop ch).length = ch := by
              simp [List.length_drop, hlj]; omega
            have hju2 := (hju (j - ch) (by omega)).2 (by omega)
            have hdd : (remaining.take (j - ch)).drop cu = (full.take j).drop (ch + cu) := by
              rw [← List.drop_drop, hslice]
            rw [parse_user_data_utf16_header L (full.take j) ((full.take j).drop ch)
              hdr0 hhj, hsub2]
            simp only [hcs, hslice, hju2, PRes.mapVal, hdd, hinj2]
        | perror =>
          rw [hpu] at hdone; simp only [PRes.mapVal] at hdone
          exact PRes.noConfusion hdone
        | incomplete m =>
          rw [hpu] at hdone; simp only [PRes.mapVal] at hdone
          exact PRes.noConfusion hdone
        | aborted =>
          rw [hpu] at hdone; simp only [PRes.mapVal] at hdone
          exact PRes.noConfusion hdone
    | perror => simp [parse_user_data, hh, PRes.bind] at hdone
    | incomplete m => simp [parse_user_data, hh, PRes.bind] at hdone
    | aborted => simp [parse_user_data, hh, PRes.bind] at hdone

theorem parse_user_data_encoding (data : List Nat) (e : Encoding) (L : Nat) (udh : Bool)
    (r : List Nat) (ud : UserData)
    (h : parse_user_data data e L udh = .done r ud) :
    ud.encoding = e := by
  cases e with
  | Gsm7Bit =>
    cases hh : (if udh then parse_user_header data else PRes.done data none) with
    | done rem h0 =>
      simp only [parse_user_data, hh, PRes.bind] at h
      cases hcs : checkedSub L ((data.length - rem.length) / 2) with
      | none => simp only [hcs] at h; exact PRes.noConfusion h
      | some rl =>
        simp only [hcs] at h
        cases hg : parse_gsm_alphabet rem rl with
        | done r2 s =>
          rw [hg] at h
          simp only [PRes.mapVal] at h
          injection h with h1 h2
          rw [← h2]
        | perror =>
          rw [hg] at h; simp only [PRes.mapVal] at h; exact PRes.noConfusion h
        | incomplete n =>
          rw [hg] at h; simp only [PRes.mapVal] at h; exact PRes.noConfusion h
        | aborted =>
          rw [hg] at h; simp only [PRes.mapVal] at h; exact PRes.noConfusion h
    | perror => simp [parse_user_data, hh, PRes.bind] at h
    | incomplete n => simp [parse_user_data, hh, PRes.bind] at h
    | aborted => simp [parse_user_data, hh, PRes.bind] at h
  | Utf16 =>
    cases hh : (if udh then parse_user_header data else PRes.done data none) with
    | done rem h0 =>
      simp only [parse_user_data, hh, PRes.bind] at h
      cases hcs : checkedSub L ((data.length - rem.length) / 2) with
      | none => simp only [hcs] at h; exact PRes.noConfusion h
      | some rl =>
        simp only [hcs] at h
        cases hg : parse_utf16 rem rl with
        | done r2 s =>
          rw [hg] at h
          simp only [PRes.mapVal] at h
          injection h with h1 h2
          rw [← h2]
        | perror =>
          rw [hg] at h; simp only [PRes.mapVal] at h; exact PRes.noConfusion h
        | incomplete n =>
          rw [hg] at h; simp only [PRes.mapVal] at h; exact PRes.noConfusion h
        | aborted =>
          rw [hg] at h; simp only [PRes.mapVal] at h; exact PRes.noConfusion h
    | perror => simp [parse_user_data, hh, PRes.bind] at h
    | incomplete n => simp [parse_user_data, hh, PRes.bind] at h
    | aborted => simp [parse_user_data, hh, PRes.bind] at h
  | Unknown =>
    cases hh : (if udh then parse_user_header data else PRes.done data none) with
    | done rem h0 =>
      simp only [parse_user_data, hh, PRes.bind] at h
      cases hcs : checkedSub L ((data.length - rem.length) / 2) with
      | none => simp only [hcs] at h; exact PRes.noConfusion h
      | some rl =>
        simp only [hcs] at h
        rcases Decidable.em (rl ≤ rem.length ∧ L ≤ data.length) with hcond | hcond
        · rw [if_pos hcond] at h
          injection h with h1 h2
          rw [← h2]
        · rw [if_neg hcond] at h
          exact PRes.noConfusion h
    | perror => simp [parse_user_data, hh, PRes.bind] at h
    | incomplete n => simp [parse_user_data, hh, PRes.bind] at h
    | aborted => simp [parse_user_data, hh, PRes.bind] at h

theorem prefixP_sc_number (sc_length : Nat) :
    PrefixP (fun r2 => match checkedSub sc_length 1 with
      | none => (PRes.aborted : PRes (List Char))
      | some n => decimal_octet_number n r2) (fun _ => True) := by
  cases hcs : checkedSub sc_length 1 with
  | none =>
    refine prefixP_of_indep _ _ (Or.inl ?_)
    intro i r w h
    simp [hcs] at h
  | some n =>
    exact prefixP_congr _ _ _ (fun i => by simp [hcs]) (prefixP_decimal_octet_number n)

theorem prefixP_pdu_tail (enc : Encoding) (udl : Nat) (udh : Bool)
    (sc_ty : AddressType) (sc : List Char) (cmd : CommandInformation)
    (snd_ty : AddressType) (snd : List Char) (pid : Nat)
    (tz : List Nat) (ts : List Char) :
    PrefixP (fun r12 => (parse_user_data r12 enc udl udh).bind fun r13 user_data =>
        match parse_date_time tz ts with
        | none => PRes.aborted
        | some t =>
          PRes.done r13
            (⟨⟨sc_ty, sc⟩, cmd, ⟨snd_ty, snd⟩, t, pid, user_data⟩ : Message))
      (fun msg => msg.user_data.encoding = Encoding.Utf16) := by
  intro full rest v hdone hgood
  beta_reduce at hdone hgood ⊢
  cases hud : parse_user_data full enc udl udh with
  | done r13 ud =>
    rw [hud] at hdone
    simp only [PRes.bind] at hdone
    cases hdt : parse_date_time tz ts with
    | none => simp only [hdt] at hdone; exact PRes.noConfusion hdone
    | some t =>
      simp only [hdt] at hdone
      injection hdone with h1 h2
      have hue : ud.encoding = enc := parse_user_data_encoding full enc udl udh r13 ud hud
      have hgood2 : ud.encoding = Encoding.Utf16 := by
        rw [← h2] at hgood
        exact hgood
      have henc : enc = Encoding.Utf16 := by rw [← hue]; exact hgood2
      subst henc
      obtain ⟨c, hc, hrest, hj⟩ :=
        prefixP_parse_user_data_utf16 udl udh full r13 ud hud trivial
      beta_reduce at hj
      refine ⟨c, hc, by rw [← h1]; exact hrest, ?_⟩
      intro j hle
      constructor
      · intro hlt
        obtain ⟨n, hn⟩ := (hj j hle).1 hlt
        refine ⟨n, ?_⟩
        rw [hn]
        rfl
      · intro hge
        rw [(hj j hle).2 hge]
        simp only [PRes.bind, hdt, h2]
  | perror => rw [hud] at hdone; simp [PRes.bind] at hdone
  | incomplete n => rw [hud] at hdone; simp [PRes.bind] at hdone
  | aborted => rw [hud] at hdone; simp [PRes.bind] at hdone

theorem prefixP_parse_pdu :
    PrefixP parse_pdu (fun msg => msg.user_data.encoding = Encoding.Utf16) := by
  unfold parse_pdu
  refine prefixP_bind _ _ _ prefixP_hex_octet ?_
  intro sc_length
  beta_reduce
  refine prefixP_bind _ _ _ (prefixP_mapRes _ _ _ prefixP_hex_octet) ?_
  intro sc_address_type
  beta_reduce
  refine prefixP_bind _ _ _ (prefixP_sc_number sc_length) ?_
  intro service_center
  beta_reduce
  refine prefixP_bind _ _ _ (prefixP_mapRes _ _ _ prefixP_hex_octet) ?_
  intro message_type
  beta_reduce
  refine prefixP_bind _ _ _ (prefixP_mapRes _ _ _ prefixP_hex_octet) ?_
  intro sender_length
  beta_reduce
  refine prefixP_bind _ _ _ (prefixP_mapRes _ _ _ prefixP_hex_octet) ?_
  intro sender_address_type
  beta_reduce
  refine prefixP_bind _ _ _ (prefixP_decimal_octet_number sender_length) ?_
  intro sender
  beta_reduce
  refine prefixP_bind _ _ _ prefixP_hex_octet ?_
  intro protocol_id
  beta_reduce
  refine prefixP_bind _ _ _ (prefixP_mapRes _ _ _ prefixP_hex_octet) ?_
  intro encoding_scheme
  beta_reduce
  refine prefixP_bind _ _ _ (prefixP_decimal_octet_number 6) ?_
  intro time_stamp
  beta_reduce
  refine prefixP_bind _ _ _ (prefixP_takeN 2) ?_
  intro time_zone
  beta_reduce
  refine prefixP_bind _ _ _ prefixP_hex_octet ?_
  intro ud_length
  beta_reduce
  exact prefixP_pdu_tail encoding_scheme ud_length message_type.has_udh
    sc_address_type service_center message_type sender_address_type sender
    protocol_id time_zone time_stamp

/-- C6 (amended): truncating the hex input of a successfully decodable
UTF-16 PDU anywhere strictly inside its consumed characters makes the
whole decode signal the incomplete-input outcome, distinct from a hard
parse failure — whichever field the cut lands in (service-center length,
addresses, command octet, protocol id, data-coding scheme, timestamp,
timezone, user-data length, user-data header fields, or the 16-bit text
body) — and the 16-bit body itself reports the missing amount.  The
7-bit text body is the exception: it panics instead (see the
counterexample). -/
theorem claim6_amended_incomplete_signals
    (input rest : List Nat) (msg : Message)
    (hdone : parse_pdu input = .done rest msg)
    (henc : msg.user_data.encoding = Encoding.Utf16)
    (j : Nat) (hj : j < input.length - rest.length) :
    (∃ n, parse_pdu (input.take j) = .incomplete n) ∧
    (∀ (data : List Nat) (length : Nat), data.length < length * 2 →
      parse_utf16 data length = .incomplete (length * 2 - data.length)) := by
  obtain ⟨c, hc, hrest, hprop⟩ := prefixP_parse_pdu input rest msg hdone henc
  have hcr : input.length - rest.length = c := by
    rw [hrest, List.length_drop]
    omega
  refine ⟨(hprop j (by omega)).1 (by omega), ?_⟩
  intro data length hlt
  simp only [parse_utf16]
  rw [if_pos hlt]

/-- C6 witness: the amended theorem applied to a concrete decodable
UTF-16 PDU, truncated after 10 hex characters (inside the sender
address), together with the generic 16-bit-body shortfall fact. -/
theorem claim6_witness :
    (∃ n, parse_pdu ((("02912104049121430008" ++ "520110210000" ++ "00" ++
      "00").toList.map Char.toNat).take 10) = .incomplete n) ∧
    (∀ (data : List Nat) (length : Nat), data.length < length * 2 →
      parse_utf16 data length = .incomplete (length * 2 - data.length)) :=
  claim6_amended_incomplete_signals
    (("02912104049121430008" ++ "520110210000" ++ "00" ++ "00").toList.map Char.toNat)
    [] ⟨⟨AddressType.International, ['1', '2']⟩, ⟨MessageType.SmsDeliver, false, false⟩,
      ⟨AddressType.International, ['1', '2', '3', '4']⟩, ⟨0, 25, 10, 1, 12, 0, 0⟩, 0,
      ⟨Encoding.Utf16, [], none⟩⟩ (by decide) (by decide) 10 (by decide)

/-! ## Claim C8 — timezone decode -/

set_option maxRecDepth 4000 in
theorem parse_ascii_hex_number_le : ∀ b < 256, parse_ascii_hex_number b ≤ 15 := by
  decide

set_option maxRecDepth 4000 in
theorem parse_ascii_hex_number_non_hex :
    ∀ b < 256, (hex_digit_value b).isNone → parse_ascii_hex_number b = 0 := by
  decide

theorem nibble_bits : ∀ o < 16, ((o &&& 8 ≠ 0) ↔ 8 ≤ o) ∧ o &&& 7 = o % 8 := by
  decide

/-- C8: for every pair of timezone bytes, the first decoded value is the
ones digit and the second's bit 3 the sign (set means negative) with its
low three bits the tens digit of the quarter-hour count; the digit pair
(tens 2, ones 0) gives −20 quarter-hours with the sign bit set and +20
(+5 hours) with it clear; and any byte that is not a hex digit maps to
digit value 0 without an error. -/
theorem claim8_time_zone (b1 : Nat) (h1 : b1 < 256) (b2 : Nat) (h2 : b2 < 256) :
    (parse_time_zone (parse_ascii_hex_number b1) (parse_ascii_hex_number b2) =
      (if 8 ≤ parse_ascii_hex_number b2 then -1 else 1) *
        ((10 * (parse_ascii_hex_number b2 % 8) + parse_ascii_hex_number b1 : Nat) : Int)) ∧
    parse_time_zone (parse_ascii_hex_number 48) (parse_ascii_hex_number 65) = -20 ∧
    parse_time_zone (parse_ascii_hex_number 48) (parse_ascii_hex_number 50) = 20 ∧
    ((hex_digit_value b1).isNone → parse_ascii_hex_number b1 = 0) := by
  refine ⟨?_, by decide, by decide, parse_ascii_hex_number_non_hex b1 h1⟩
  have hz : parse_ascii_hex_number b1 ≤ 15 := parse_ascii_hex_number_le b1 h1
  have ho : parse_ascii_hex_number b2 ≤ 15 := parse_ascii_hex_number_le b2 h2
  set z := parse_ascii_hex_number b1 with hzdef
  set o := parse_ascii_hex_number b2 with hodef
  obtain ⟨hbit, hmod⟩ := nibble_bits o (by omega)
  unfold parse_time_zone
  rcases Decidable.em (8 ≤ o) with hle | hle
  · rw [if_pos (hbit.mpr hle), if_pos hle, hmod]
    push_cast
    ring
  · have hno : o &&& 8 = 0 := by
      by_contra hc
      exact hle (hbit.mp hc)
    rw [if_neg (by simp [hno]), if_neg hle]
    have : o % 8 = o := Nat.mod_eq_of_lt (by omega)
    rw [this]
    push_cast
    ring

/-- C8 witness: the theorem applied at the bytes `'0'` and `'A'`. -/
theorem claim8_witness :
    parse_time_zone (parse_ascii_hex_number 48) (parse_ascii_hex_number 65) = -20 :=
  (claim8_time_zone 48 (by decide) 65 (by decide)).2.1

/-! ## Claim C7 — 16-bit text encode/decode round trip -/

theorem takeN_append (g r : List Nat) : takeN g.length (g ++ r) = .done r g := by
  simp only [takeN, List.length_append]
  rw [if_neg (by omega), List.take_left, List.drop_left]

theorem u4_to_hex_value : ∀ x < 16, hex_digit_value (u4_to_hex x) = some x := by
  decide

theorem u4_to_hex_ne_plus : ∀ x < 16, u4_to_hex x ≠ 43 := by
  decide

theorem from_str_radix_16_cons (a : Nat) (ha : a ≠ 43) (rest : List Nat) :
    from_str_radix_16 (a :: rest) = hex_digits_value (a :: rest) := by
  simp [from_str_radix_16, ha]

theorem hex_digits_value_four (a b c d x y z w : Nat)
    (ha : hex_digit_value a = some x) (hb : hex_digit_value b = some y)
    (hc : hex_digit_value c = some z) (hd : hex_digit_value d = some w) :
    hex_digits_value [a, b, c, d] = some (16 * (16 * (16 * x + y) + z) + w) := by
  simp [hex_digits_value, ha, hb, hc, hd]

/-- A 16-bit code unit emitted as four hex characters (high byte first)
parses back to the same value. -/
theorem u16_from_hex_str_pair (u : Nat) (hu : u < 65536) :
    u16_from_hex_str (u8_to_hex (u >>> 8) ++ u8_to_hex (u &&& 255)) = some u := by
  have hhi : u >>> 8 = u / 256 := by
    simp [Nat.shiftRight_eq_div_pow]
  have hlo : u &&& 255 = u % 256 := by
    have h8 := Nat.and_pow_two_sub_one_eq_mod u 8
    norm_num at h8
    exact h8
  have hhilt : u / 256 < 256 := by omega
  have hmodid : u / 256 % 256 = u / 256 := Nat.mod_eq_of_lt hhilt
  have hsh : ∀ n : Nat, n >>> 4 = n / 16 := by
    intro n
    simp [Nat.shiftRight_eq_div_pow]
  rw [hhi, hlo]
  simp only [u8_to_hex, hmodid, Nat.mod_mod, hsh]
  have hx : hex_digit_value (u4_to_hex (u / 256 / 16)) = some (u / 256 / 16) :=
    u4_to_hex_value _ (by omega)
  have hy : hex_digit_value (u4_to_hex (u / 256 % 16)) = some (u / 256 % 16) :=
    u4_to_hex_value _ (by omega)
  have hz : hex_digit_value (u4_to_hex (u % 256 / 16)) = some (u % 256 / 16) :=
    u4_to_hex_value _ (by omega)
  have hw : hex_digit_value (u4_to_hex (u % 256 % 16)) = some (u % 256 % 16) :=
    u4_to_hex_value _ (by omega)
  simp only [u16_from_hex_str, List.cons_append, List.nil_append]
  rw [from_str_radix_16_cons _ (u4_to_hex_ne_plus _ (by omega)) _,
    hex_digits_value_four _ _ _ _ _ _ _ _ hx hy hz hw]
  congr 1
  omega

/-- One successful, input-consuming iteration of nom's `many0`. -/
theorem many0Go_step {α : Type} (p : List Nat → PRes α) (f : Nat)
    (input rest : List Nat) (acc : List α) (o : α)
    (hne : input ≠ []) (hp : p input = .done rest o)
    (hlt : rest.length < input.length) :
    many0Go p (f + 1) input acc = many0Go p f rest (o :: acc) := by
  simp only [many0Go, hp]
  rw [if_neg (by simpa using hne), if_pos hlt]

/-- The `many0` of 4-hex-character groups recovers the code-unit list. -/
theorem u8_vec_groups_go : ∀ (us : List Nat) (acc : List Nat) (fuel : Nat),
    (∀ u ∈ us, u < 65536) →
    (us.flatMap fun u => u8_to_hex (u >>> 8) ++ u8_to_hex (u &&& 255)).length + 1 ≤ fuel →
    many0Go (mapRes (takeN 4) u16_from_hex_str) fuel
      (us.flatMap fun u => u8_to_hex (u >>> 8) ++ u8_to_hex (u &&& 255)) acc =
      .done [] (acc.reverse ++ us) := by
  intro us
  induction us with
  | nil =>
    intro acc fuel _ hfuel
    match fuel, hfuel with
    | f + 1, _ =>
      simp [many0Go]
  | cons u us ih =>
    intro acc fuel hus hfuel
    have hg4 : (u8_to_hex (u >>> 8) ++ u8_to_hex (u &&& 255)).length = 4 := by
      simp [u8_to_hex]
    have hflat : ((u :: us).flatMap fun v => u8_to_hex (v >>> 8) ++ u8_to_hex (v &&& 255)) =
        (u8_to_hex (u >>> 8) ++ u8_to_hex (u &&& 255)) ++
          (us.flatMap fun v => u8_to_hex (v >>> 8) ++ u8_to_hex (v &&& 255)) := by
      simp [List.flatMap_cons]
    rw [hflat] at hfuel ⊢
    have hlen : ((u8_to_hex (u >>> 8) ++ u8_to_hex (u &&& 255)) ++
        (us.flatMap fun v => u8_to_hex (v >>> 8) ++ u8_to_hex (v &&& 255))).length =
        4 + (us.flatMap fun v => u8_to_hex (v >>> 8) ++ u8_to_hex (v &&& 255)).length := by
      rw [List.length_append, hg4]
    match fuel, hfuel with
    | f + 1, hfuel =>
      have htk : takeN 4 ((u8_to_hex (u >>> 8) ++ u8_to_hex (u &&& 255)) ++
          (us.flatMap fun v => u8_to_hex (v >>> 8) ++ u8_to_hex (v &&& 255))) =
          .done (us.flatMap fun v => u8_to_hex (v >>> 8) ++ u8_to_hex (v &&& 255))
            (u8_to_hex (u >>> 8) ++ u8_to_hex (u &&& 255)) := by
        rw [← hg4]
        exact takeN_append _ _
      have hp : mapRes (takeN 4) u16_from_hex_str
          ((u8_to_hex (u >>> 8) ++ u8_to_hex (u &&& 255)) ++
            (us.flatMap fun v => u8_to_hex (v >>> 8) ++ u8_to_hex (v &&& 255))) =
          .done (us.flatMap fun v => u8_to_hex (v >>> 8) ++ u8_to_hex (v &&& 255)) u := by
        simp only [mapRes, htk, u16_from_hex_str_pair u (hus u (by simp))]
      have hne : ((u8_to_hex (u >>> 8) ++ u8_to_hex (u &&& 255)) ++
          (us.flatMap fun v => u8_to_hex (v >>> 8) ++ u8_to_hex (v &&& 255))) ≠ [] := by
        intro hc
        rw [hc] at hlen
        simp only [List.length_nil] at hlen
        omega
      have hlt : (us.flatMap fun v => u8_to_hex (v >>> 8) ++ u8_to_hex (v &&& 255)).length <
          ((u8_to_hex (u >>> 8) ++ u8_to_hex (u &&& 255)) ++
            (us.flatMap fun v => u8_to_hex (v >>> 8) ++ u8_to_hex (v &&& 255))).length := by
        omega
      rw [many0Go_step _ f _ _ acc u hne hp hlt,
        ih (u :: acc) f (fun v hv => hus v (by simp [hv])) (by omega)]
      simp

theorem u8_vec_groups (us : List Nat) (hus : ∀ u ∈ us, u < 65536) :
    u8_vec_to_u16_vec
      (us.flatMap fun u => u8_to_hex (u >>> 8) ++ u8_to_hex (u &&& 255)) =
      .done [] us := by
  have := u8_vec_groups_go us []
    ((us.flatMap fun u => u8_to_hex (u >>> 8) ++ u8_to_hex (u &&& 255)).length + 1)
    hus (by omega)
  simpa [u8_vec_to_u16_vec, many0] using this

/-- Rebuilding a string from the code units of a BMP-only string returns
the original string. -/
theorem string_from_utf16_map (s : List Char) (hs : ∀ c ∈ s, c.toNat < 65536) :
    string_from_utf16 (s.map Char.toNat) = some s := by
  induction s with
  | nil => simp [string_from_utf16]
  | cons c cs ih =>
    have hval : Nat.isValidChar c.toNat := c.valid
    have hvalid : c.toNat < 0xD800 ∨ 0xE000 ≤ c.toNat := by
      rcases hval with h | ⟨h1, _⟩
      · exact Or.inl h
      · exact Or.inr h1
    rw [List.map_cons, string_from_utf16.eq_def]
    simp only []
    rw [if_pos hvalid, ih (fun x hx => hs x (by simp [hx]))]
    simp

theorem flatMap_encode_single (us : List Nat) (h : ∀ u ∈ us, u < 65536) :
    us.flatMap encode_utf16_char = us := by
  induction us with
  | nil => simp
  | cons u rest ih =>
    have hu : u < 65536 := h u (by simp)
    simp only [List.flatMap_cons, encode_utf16_char, if_pos (by omega : u < 0x10000)]
    rw [ih (fun v hv => h v (by simp [hv]))]
    simp

theorem flatMap_group_length (us : List Nat) :
    (us.flatMap fun u => u8_to_hex (u >>> 8) ++ u8_to_hex (u &&& 255)).length =
      4 * us.length := by
  induction us with
  | nil => rfl
  | cons u rest ih =>
    rw [List.flatMap_cons, List.length_append, ih, List.length_cons]
    have hg : (u8_to_hex (u >>> 8) ++ u8_to_hex (u &&& 255)).length = 4 := by
      simp [u8_to_hex]
    omega

/-- C7 (counterexample): for a 128-code-unit string the encoder's
`length as u8` truncates 256 to 0, so the emitted length octet is `00`
and decoding the output returns the empty string, not the original —
the claim's universal round trip and `2 × codeUnitCount` length octet
both fail. -/
theorem claim7_counterexample :
    (UserData.new_utf16 (List.replicate 128 'a')).serialize_to_pdu =
      some ([48, 48] ++ (List.replicate 128 [48, 48, 54, 49]).flatten) ∧
    ((hex_octet ([48, 48] ++ (List.replicate 128 [48, 48, 54, 49]).flatten)).bind
      fun r L => parse_user_data r Encoding.Utf16 L false) =
      .done ((List.replicate 128 [48, 48, 54, 49]).flatten)
        ⟨Encoding.Utf16, [], none⟩ ∧
    ([] : List Char) ≠ List.replicate 128 'a' := by
  refine ⟨by set_option maxRecDepth 40000 in decide,
    by set_option maxRecDepth 40000 in decide, by decide⟩

/-- C7 (amended): for every string of at most 127 characters, each
representable as a single 16-bit code unit, the encode emits a leading
length octet equal to `2 × codeUnitCount` followed by each code unit as
two hex-encoded bytes (high byte first), and decoding that output — the
user-data length octet then the 16-bit body, exactly as `parse_pdu`
consumes it — returns the original string.  (From 128 code units on the
`length as u8` truncation breaks the length octet — see the
counterexample.) -/
theorem claim7_amended_utf16_round_trip (s : List Char)
    (hbmp : ∀ c ∈ s, c.toNat < 65536) (hlen : s.length ≤ 127) :
    ∃ out, (UserData.new_utf16 s).serialize_to_pdu = some out ∧
      hex_octet out = .done (out.drop 2) (2 * s.length) ∧
      ((hex_octet out).bind fun r L => parse_user_data r Encoding.Utf16 L false) =
        .done [] (UserData.new_utf16 s) := by
  have hbmp2 : ∀ u ∈ s.map Char.toNat, u < 65536 := by
    intro u hu
    obtain ⟨c, hc, hcu⟩ := List.mem_map.mp hu
    rw [← hcu]
    exact hbmp c hc
  have hunits : ((s.map Char.toNat).flatMap encode_utf16_char) = s.map Char.toNat :=
    flatMap_encode_single _ hbmp2
  have hslen : (s.map Char.toNat).length = s.length := List.length_map _ _
  have h2n : 2 * s.length < 256 := by omega
  have hint_len : ((s.map Char.toNat).flatMap fun byte =>
      u8_to_hex (byte >>> 8) ++ u8_to_hex (byte &&& 0b11111111)).length =
      4 * s.length := by
    rw [flatMap_group_length, hslen]
  have hser : (UserData.new_utf16 s).serialize_to_pdu =
      some (u8_to_hex (2 * s.length) ++
        ((s.map Char.toNat).flatMap fun byte =>
          u8_to_hex (byte >>> 8) ++ u8_to_hex (byte &&& 0b11111111))) := by
    simp only [UserData.serialize_to_pdu, UserData.new_utf16]
    rw [if_neg (by simp), if_neg (by simp)]
    rw [hunits, hslen, Nat.mod_eq_of_lt h2n]
  have hh : hex_octet (u8_to_hex (2 * s.length) ++
      ((s.map Char.toNat).flatMap fun byte =>
        u8_to_hex (byte >>> 8) ++ u8_to_hex (byte &&& 0b11111111))) =
      .done ((s.map Char.toNat).flatMap fun byte =>
        u8_to_hex (byte >>> 8) ++ u8_to_hex (byte &&& 0b11111111)) (2 * s.length) :=
    hex_octet_u8_to_hex _ (by omega) _
  have hdrop2 : (u8_to_hex (2 * s.length) ++
      ((s.map Char.toNat).flatMap fun byte =>
        u8_to_hex (byte >>> 8) ++ u8_to_hex (byte &&& 0b11111111))).drop 2 =
      (s.map Char.toNat).flatMap fun byte =>
        u8_to_hex (byte >>> 8) ++ u8_to_hex (byte &&& 0b11111111) := by
    rw [← u8_to_hex_length (2 * s.length)]
    exact List.drop_left _ _
  have hpu : parse_utf16 ((s.map Char.toNat).flatMap fun byte =>
      u8_to_hex (byte >>> 8) ++ u8_to_hex (byte &&& 0b11111111)) (2 * s.length) =
      .done [] s := by
    have h42 : 2 * s.length * 2 = 4 * s.length := by ring
    simp only [parse_utf16, h42, hint_len]
    rw [if_neg (by omega)]
    have htake : (((s.map Char.toNat).flatMap fun byte =>
        u8_to_hex (byte >>> 8) ++ u8_to_hex (byte &&& 0b11111111)).take
          (4 * s.length)) =
        (s.map Char.toNat).flatMap fun byte =>
          u8_to_hex (byte >>> 8) ++ u8_to_hex (byte &&& 0b11111111) := by
      apply List.take_of_length_le
      omega
    have hdropall : (((s.map Char.toNat).flatMap fun byte =>
        u8_to_hex (byte >>> 8) ++ u8_to_hex (byte &&& 0b11111111)).drop
          (4 * s.length)) = [] := by
      apply List.drop_eq_nil_iff.mpr
      omega
    rw [htake, hdropall, u8_vec_groups _ hbmp2]
    simp [string_from_utf16_map s (fun c hc => hbmp c hc)]
  refine ⟨_, hser, ?_, ?_⟩
  · rw [hh, hdrop2]
  · rw [hh]
    simp only [PRes.bind, parse_user_data, Bool.false_eq_true, if_neg
      (by simp : ¬ False)]
    simp only [Nat.sub_self, Nat.zero_div, checkedSub, if_pos (Nat.zero_le _),
      Nat.sub_zero, Option.map_none, hpu, PRes.mapVal]
    rfl

/-- C7 witness: the amended theorem applied to the string `Hi!`. -/
theorem claim7_witness :
    ∃ out, (UserData.new_utf16 ['H', 'i', '!']).serialize_to_pdu = some out ∧
      hex_octet out = .done (out.drop 2) (2 * (['H', 'i', '!'] : List Char).length) ∧
      ((hex_octet out).bind fun r L => parse_user_data r Encoding.Utf16 L false) =
        .done [] (UserData.new_utf16 ['H', 'i', '!']) :=
  claim7_amended_utf16_round_trip ['H', 'i', '!'] (by decide) (by decide)

/-! ## Claim C1 — tag-0 header element retention -/

theorem parse_entries_go_spec (l : List HeaderEntry) : ∀ (cm : Option ConcatenatedMessage)
    (acc : List HeaderEntry),
    parse_entries_go l cm acc =
      ⟨(match cm with | some c => some c | none => first_concat l),
       acc ++ l.filter (fun e => !tag0_success e)⟩ := by
  induction l with
  | nil =>
    intro cm acc
    simp only [parse_entries_go, first_concat, List.findSome?_nil, List.filter_nil,
      List.append_nil]
    cases cm <;> rfl
  | cons e rest ih =>
    intro cm acc
    have hfc : ∀ o rpdu, parse_concatenated_message e.data = .done rpdu o → e.tag = 0 →
        first_concat (e :: rest) = some o := by
      intro o rpdu hp he
      simp only [first_concat, List.findSome?_cons, if_pos he, hp]
    have hfc2 : (e.tag = 0 → ¬ (parse_concatenated_message e.data).isDone) →
        first_concat (e :: rest) = first_concat rest := by
      intro hnd
      simp only [first_concat, List.findSome?_cons]
      rcases Decidable.em (e.tag = 0) with he | he
      · rw [if_pos he]
        cases hp : parse_concatenated_message e.data with
        | done r o => exact absurd (by simp [PRes.isDone, hp]) (hnd he)
        | perror => rfl
        | incomplete n => rfl
        | aborted => rfl
      · rw [if_neg he]
    rcases Decidable.em (e.tag = 0) with he | he
    · cases hp : parse_concatenated_message e.data with
      | done r o =>
        have hsucc : tag0_success e = true := by simp [tag0_success, he, PRes.isDone, hp]
        simp only [parse_entries_go, if_pos he, hp, ih, hfc o r hp he,
          List.filter_cons, hsucc]
        cases cm <;> simp [Option.getD]
      | perror =>
        have hfail : tag0_success e = false := by simp [tag0_success, PRes.isDone, hp]
        simp only [parse_entries_go, if_pos he, hp, ih,
          hfc2 (fun _ => by simp [PRes.isDone, hp]), List.filter_cons, hfail]
        simp
      | incomplete n =>
        have hfail : tag0_success e = false := by simp [tag0_success, PRes.isDone, hp]
        simp only [parse_entries_go, if_pos he, hp, ih,
          hfc2 (fun _ => by simp [PRes.isDone, hp]), List.filter_cons, hfail]
        simp
      | aborted =>
        have hfail : tag0_success e = false := by simp [tag0_success, PRes.isDone, hp]
        simp only [parse_entries_go, if_pos he, hp, ih,
          hfc2 (fun _ => by simp [PRes.isDone, hp]), List.filter_cons, hfail]
        simp
    · have hfail : tag0_success e = false := by simp [tag0_success, he]
      simp only [parse_entries_go, if_neg he, ih, hfc2 (fun h0 => absurd h0 he),
        List.filter_cons, hfail]
      simp

/-- C1 (counterexample): decoding a user data whose UDH holds a
well-formed tag-0 (concatenated-message) element followed by an
unknown-tag element populates the typed `ConcatenatedMessage` but drops
the tag-0 element from the retained entries list — only the unknown-tag
element survives — so the header is not reconstructible from its
retained elements, contrary to the claim. -/
theorem claim1_counterexample :
    parse_user_data (("0800030703020501AA00480069").toList.map Char.toNat)
      Encoding.Utf16 13 true =
      .done [] ⟨Encoding.Utf16, ['H','i'],
        some ⟨some ⟨7, 3, 2⟩, [⟨5, [65, 65]⟩]⟩⟩ ∧
    (Header.parse_entries
      ⟨none, [⟨0, [48, 55, 48, 51, 48, 50]⟩, ⟨5, [65, 65]⟩]⟩).entries.all
      (fun e => !(e.tag == 0)) = true := by
  exact ⟨by decide, by decide⟩

/-- C1 (amended): `Header::parse_entries` populates the typed
`ConcatenatedMessage` with the first well-formed tag-0 payload (keeping
a previously set value), but the retained entries list keeps only the
elements that are not well-formed tag-0 elements: a successfully decoded
concatenated-message element is removed, so the original entry list is
not preserved. -/
theorem claim1_amended_tag0_dropped (h : Header) :
    (h.parse_entries).concatenated_message =
      (match h.concatenated_message with
       | some c => some c
       | none => first_concat h.entries) ∧
    (h.parse_entries).entries = h.entries.filter (fun e => !tag0_success e) ∧
    ∀ e ∈ (h.parse_entries).entries, tag0_success e = false := by
  have hgo := parse_entries_go_spec h.entries h.concatenated_message []
  unfold Header.parse_entries
  rw [hgo]
  refine ⟨rfl, by simp, ?_⟩
  intro e he
  simp only [List.nil_append, List.mem_filter] at he
  simpa using he.2

/-- C1 witness: the amended theorem applied to the concrete header of
the counterexample. -/
theorem claim1_witness :
    (Header.parse_entries
      ⟨none, [⟨0, [48, 55, 48, 51, 48, 50]⟩, ⟨5, [65, 65]⟩]⟩).concatenated_message =
      first_concat [⟨0, [48, 55, 48, 51, 48, 50]⟩, ⟨5, [65, 65]⟩] :=
  (claim1_amended_tag0_dropped
    ⟨none, [⟨0, [48, 55, 48, 51, 48, 50]⟩, ⟨5, [65, 65]⟩]⟩).1

/-! ## Claim C9 — out-of-range pixel writes -/

theorem write_pixel_bytes_isSome : ∀ (n : Nat) (frame : List Nat) (idx pixel : Nat),
    idx + n ≤ frame.length → (write_pixel_bytes frame idx pixel n).isSome := by
  intro n
  induction n with
  | zero => intro frame idx pixel _; simp [write_pixel_bytes]
  | succ m ih =>
    intro frame idx pixel hle
    have hlt : idx < frame.length := by omega
    simp only [write_pixel_bytes, if_pos hlt]
    exact ih _ _ _ (by simp [List.length_set]; omega)

/-- C9 (counterexample): on a 2×2 hardware frame buffer with one byte per
pixel, `write_pixel(2, 0, opaque)` targets `x = 2 ≥ width = 2` with `y`
in range, yet the linear index `0·2 + 2·1 = 2` is inside the frame, so
the write silently lands in the second row instead of aborting the
process — the claim's "aborts for every coordinate pair outside the
addressable area" fails. -/
theorem claim9_counterexample :
    (FrameBuffer.dimensions ⟨⟨⟨8, 0⟩, ⟨8, 0⟩, ⟨8, 0⟩⟩, [0, 0, 0, 0], 2, 1, 2, 2⟩ =
      (2, 2)) ∧
    FrameBuffer.write_pixel ⟨⟨⟨8, 0⟩, ⟨8, 0⟩, ⟨8, 0⟩⟩, [0, 0, 0, 0], 2, 1, 2, 2⟩
      2 0 ⟨255, 255, 255, 1⟩ =
      some ⟨⟨⟨8, 0⟩, ⟨8, 0⟩, ⟨8, 0⟩⟩, [0, 0, 255, 0], 2, 1, 2, 2⟩ := by
  exact ⟨by decide, by decide⟩

/-- C9 (amended): for a fully opaque colour on a frame buffer whose frame
covers `line_length * height` bytes (as `FrameBuffer::new` allocates)
with a line length divisible by the pixel size and sane channel data,
`write_pixel` aborts the process exactly when the linear byte index
`y * line_length + x * bytes_per_pixel` falls outside the frame; any
`y ≥ height` therefore aborts, but an `x ≥ width` whose linear index
stays inside the frame is written (to the wrong row) without aborting. -/
theorem claim9_amended_write_pixel_abort (fb : FrameBuffer) (x y : Nat) (c : Color)
    (hop : c.opacity = 1)
    (hlen : fb.frame.length = fb.line_length * fb.height)
    (hdvd : fb.bytes_per_pixel ∣ fb.line_length)
    (hr : fb.var_data.red.length ≤ 8) (hg : fb.var_data.green.length ≤ 8)
    (hb : fb.var_data.blue.length ≤ 8)
    (hro : fb.var_data.red.offset < 64) (hgo : fb.var_data.green.offset < 64)
    (hbo : fb.var_data.blue.offset < 64) :
    (fb.write_pixel x y c = none ↔
      fb.frame.length ≤ y * fb.line_length + x * fb.bytes_per_pixel) ∧
    (fb.height ≤ y → fb.write_pixel x y c = none) := by
  have hopn : ¬ c.opacity ≠ 1 := by simp [hop]
  rcases Decidable.em
      (fb.frame.length ≤ y * fb.line_length + x * fb.bytes_per_pixel) with hi | hi
  · constructor
    · simp only [FrameBuffer.write_pixel, if_neg hopn, if_pos hi]
      simp [hi]
    · intro _
      simp only [FrameBuffer.write_pixel, if_neg hopn, if_pos hi]
  · have hguard : ¬ (8 < fb.var_data.red.length ∨ 8 < fb.var_data.green.length ∨
        8 < fb.var_data.blue.length ∨ 64 ≤ fb.var_data.red.offset ∨
        64 ≤ fb.var_data.green.offset ∨ 64 ≤ fb.var_data.blue.offset) := by
      push_neg
      exact ⟨by omega, by omega, by omega, by omega, by omega, by omega⟩
    obtain ⟨a, ha⟩ := hdvd
    have hstep : y * fb.line_length + x * fb.bytes_per_pixel + fb.bytes_per_pixel ≤
        fb.frame.length := by
      rcases Nat.eq_zero_or_pos fb.bytes_per_pixel with hz | hpos
      · exfalso
        apply hi
        rw [hlen, ha, hz]
        simp
      · have hidx : y * fb.line_length + x * fb.bytes_per_pixel =
            fb.bytes_per_pixel * (y * a + x) := by rw [ha]; ring
        have hlen2 : fb.frame.length = fb.bytes_per_pixel * (a * fb.height) := by
          rw [hlen, ha]; ring
        have hlt : fb.bytes_per_pixel * (y * a + x) <
            fb.bytes_per_pixel * (a * fb.height) := by
          rw [← hidx, ← hlen2]; omega
        have : y * a + x < a * fb.height := Nat.lt_of_mul_lt_mul_left hlt
        calc y * fb.line_length + x * fb.bytes_per_pixel + fb.bytes_per_pixel
            = fb.bytes_per_pixel * (y * a + x + 1) := by rw [ha]; ring
          _ ≤ fb.bytes_per_pixel * (a * fb.height) :=
              Nat.mul_le_mul_left _ (by omega)
          _ = fb.frame.length := hlen2.symm
    have hsome := write_pixel_bytes_isSome fb.bytes_per_pixel fb.frame
      (y * fb.line_length + x * fb.bytes_per_pixel)
      ((((c.red >>> (8 - fb.var_data.red.length)) <<< fb.var_data.red.offset) |||
        ((c.green >>> (8 - fb.var_data.green.length)) <<< fb.var_data.green.offset) |||
        ((c.blue >>> (8 - fb.var_data.blue.length)) <<< fb.var_data.blue.offset)) % 2 ^ 64)
      hstep
    constructor
    · simp only [FrameBuffer.write_pixel, if_neg hopn, if_neg hi, if_neg hguard]
      constructor
      · intro hnone
        exfalso
        rcases Option.isSome_iff_exists.mp hsome with ⟨fr, hfr⟩
        rw [hfr] at hnone
        simp [Option.map] at hnone
      · intro hcon
        exact absurd hcon hi
    · intro hy
      exfalso
      apply hi
      calc fb.frame.length = fb.line_length * fb.height := hlen
        _ ≤ fb.line_length * y := Nat.mul_le_mul_left _ hy
        _ = y * fb.line_length := Nat.mul_comm _ _
        _ ≤ y * fb.line_length + x * fb.bytes_per_pixel := Nat.le_add_right _ _

/-- C9 witness: the amended theorem applied to the 2×2 demo buffer at the
in-range coordinate (1, 1). -/
theorem claim9_witness :
    (FrameBuffer.write_pixel ⟨⟨⟨8, 0⟩, ⟨8, 0⟩, ⟨8, 0⟩⟩, [0, 0, 0, 0], 2, 1, 2, 2⟩
      1 1 ⟨255, 255, 255, 1⟩ = none ↔
      ([0, 0, 0, 0] : List Nat).length ≤ 1 * 2 + 1 * 1) ∧
    ((2 : Nat) ≤ 1 → FrameBuffer.write_pixel
      ⟨⟨⟨8, 0⟩, ⟨8, 0⟩, ⟨8, 0⟩⟩, [0, 0, 0, 0], 2, 1, 2, 2⟩ 1 1 ⟨255, 255, 255, 1⟩ =
      none) :=
  claim9_amended_write_pixel_abort ⟨⟨⟨8, 0⟩, ⟨8, 0⟩, ⟨8, 0⟩⟩, [0, 0, 0, 0], 2, 1, 2, 2⟩
    1 1 ⟨255, 255, 255, 1⟩ rfl (by decide) (by decide) (by decide) (by decide)
    (by decide) (by decide) (by decide) (by decide)

/-! ## Claim C3 — packed 7-bit alphabet decode -/

theorem gsm_mask_eq : ∀ s < 7, GSM_MASKS.getD s 0 = 2 ^ (7 - s) - 1 := by
  decide

/-- At step `s`, the masked-and-shifted octet bits plus a carry below
`2 ^ s` always index inside the 128-entry character table. -/
theorem gsm_char_index_lt (s b v : Nat) (hs : s < 7) (hb : b < 256) (hv : v < 2 ^ s) :
    (b &&& GSM_MASKS.getD s 0) <<< s + v < 128 := by
  rw [gsm_mask_eq s hs, Nat.shiftLeft_eq]
  have h2 : (b &&& (2 ^ (7 - s) - 1)) * 2 ^ s ≤ (2 ^ (7 - s) - 1) * 2 ^ s :=
    Nat.mul_le_mul_right _ Nat.and_le_right
  have hss : 7 - s + s = 7 := by omega
  have h3 : 2 ^ (7 - s) * 2 ^ s = 128 := by
    rw [← pow_add, hss]
    norm_num
  have hpos : 0 < 2 ^ (7 - s) := pow_pos (by norm_num) _
  have hone : 2 ^ (7 - s) - 1 + 1 = 2 ^ (7 - s) := by omega
  have h4 : (2 ^ (7 - s) - 1) * 2 ^ s + 2 ^ s = 128 := by
    calc (2 ^ (7 - s) - 1) * 2 ^ s + 2 ^ s = (2 ^ (7 - s) - 1 + 1) * 2 ^ s := by ring
      _ = 2 ^ (7 - s) * 2 ^ s := by rw [hone]
      _ = 128 := h3
  omega

/-- At step `s`, the new carry — the octet's high bits shifted right by
`7 - s` — stays below `2 ^ (s + 1)`. -/
theorem gsm_carry_lt (s b : Nat) (hb : b < 256) :
    (b &&& (GSM_MASKS.getD s 0 ^^^ 255)) >>> (7 - s) < 2 ^ (s + 1) := by
  have h1 : b &&& (GSM_MASKS.getD s 0 ^^^ 255) ≤ b := Nat.and_le_left
  rw [Nat.shiftRight_eq_div_pow]
  have hd : 0 < 2 ^ (7 - s) := pow_pos (by norm_num) _
  rw [Nat.div_lt_iff_lt_mul hd]
  have hle : 256 ≤ 2 ^ (s + 1) * 2 ^ (7 - s) := by
    rw [← pow_add]
    calc (256 : Nat) = 2 ^ 8 := by norm_num
      _ ≤ 2 ^ (s + 1 + (7 - s)) := Nat.pow_le_pow_right (by norm_num) (by omega)
  omega

/-- One non-final step of the decode loop: consume one hex octet, emit one
character, advance the carry. -/
theorem gsm_loop_step (n b saved parsed : Nat) (r2 : List Nat)
    (hb : b < 256) (hs : saved < 2 ^ (parsed % 8)) (hst : parsed % 8 < 7) :
    ∃ c : Char, ∃ saved2 : Nat, saved2 < 2 ^ ((parsed + 1) % 8) ∧
      gsm_loop (n + 1) (u8_to_hex b ++ r2) saved parsed =
        (gsm_loop n r2 saved2 (parsed + 1)).mapVal (fun out => c :: out) := by
  have hidx : (b &&& GSM_MASKS.getD (parsed % 8) 0) <<< (parsed % 8) + saved < 128 :=
    gsm_char_index_lt (parsed % 8) b saved hst hb hs
  have hlt : (b &&& GSM_MASKS.getD (parsed % 8) 0) <<< (parsed % 8) + saved <
      GSM_CHARS.length := by
    have : GSM_CHARS.length = 128 := by rfl
    omega
  have hget : GSM_CHARS.get? ((b &&& GSM_MASKS.getD (parsed % 8) 0) <<< (parsed % 8) + saved) =
      some (GSM_CHARS.get ⟨_, hlt⟩) := List.get?_eq_get hlt
  refine ⟨GSM_CHARS.get ⟨_, hlt⟩,
    (b &&& (GSM_MASKS.getD (parsed % 8) 0 ^^^ 255)) >>> (7 - parsed % 8), ?_, ?_⟩
  · have hmod : (parsed + 1) % 8 = parsed % 8 + 1 := by omega
    rw [hmod]
    exact gsm_carry_lt (parsed % 8) b hb
  · simp only [gsm_loop, if_neg (by omega : ¬ parsed % 8 = 7),
      hex_octet_u8_to_hex b hb r2, hget]

/-- The final step of an 8-character group: the character comes from the
carry alone and no octet is consumed. -/
theorem gsm_loop_step7 (n saved parsed : Nat) (rest : List Nat)
    (hs : saved < 128) (hst : parsed % 8 = 7) :
    ∃ c : Char, gsm_loop (n + 1) rest saved parsed =
      (gsm_loop n rest 0 (parsed + 1)).mapVal (fun out => c :: out) := by
  have hlt : saved < GSM_CHARS.length := by
    have : GSM_CHARS.length = 128 := by rfl
    omega
  have hget : GSM_CHARS.get? saved = some (GSM_CHARS.get ⟨_, hlt⟩) := List.get?_eq_get hlt
  refine ⟨GSM_CHARS.get ⟨_, hlt⟩, ?_⟩
  simp only [gsm_loop, if_pos hst, hget]

/-- C3: decoding the packed 7-bit alphabet follows the documented
step/mask/carry algorithm.  First conjunct: the hand-packed fixture
`E8329BFD46A701` — "hellohi" plus one `'@'` padding character in 7
octets — decodes back to exactly those characters.  Second conjunct: for
any 7 octets, requesting 8 characters succeeds, consumes exactly those 7
octets (14 hex characters) and produces exactly 8 characters, every
septet lookup staying inside the 128-entry table. -/
theorem claim3_gsm_seven_bit (b0 : Nat) (h0 : b0 < 256) (b1 : Nat) (h1 : b1 < 256)
    (b2 : Nat) (h2 : b2 < 256) (b3 : Nat) (h3 : b3 < 256) (b4 : Nat) (h4 : b4 < 256)
    (b5 : Nat) (h5 : b5 < 256) (b6 : Nat) (h6 : b6 < 256) (r : List Nat) :
    (parse_gsm_alphabet (("E8329BFD46A701").toList.map Char.toNat) 8 =
      .done [] ['h','e','l','l','o','h','i','@']) ∧
    ∃ cs : List Char,
      parse_gsm_alphabet
        (u8_to_hex b0 ++ u8_to_hex b1 ++ u8_to_hex b2 ++ u8_to_hex b3 ++
          u8_to_hex b4 ++ u8_to_hex b5 ++ u8_to_hex b6 ++ r) 8 = .done r cs ∧
      cs.length = 8 := by
  refine ⟨by decide, ?_⟩
  obtain ⟨c0, s1, hs1, he0⟩ := gsm_loop_step 7 b0 0 0
    (u8_to_hex b1 ++ (u8_to_hex b2 ++ (u8_to_hex b3 ++ (u8_to_hex b4 ++ (u8_to_hex b5 ++
      (u8_to_hex b6 ++ r)))))) h0 (by decide) (by decide)
  obtain ⟨c1, s2, hs2, he1⟩ := gsm_loop_step 6 b1 s1 1
    (u8_to_hex b2 ++ (u8_to_hex b3 ++ (u8_to_hex b4 ++ (u8_to_hex b5 ++
      (u8_to_hex b6 ++ r))))) h1 hs1 (by decide)
  obtain ⟨c2, s3, hs3, he2⟩ := gsm_loop_step 5 b2 s2 2
    (u8_to_hex b3 ++ (u8_to_hex b4 ++ (u8_to_hex b5 ++ (u8_to_hex b6 ++ r)))) h2 hs2
    (by decide)
  obtain ⟨c3, s4, hs4, he3⟩ := gsm_loop_step 4 b3 s3 3
    (u8_to_hex b4 ++ (u8_to_hex b5 ++ (u8_to_hex b6 ++ r))) h3 hs3 (by decide)
  obtain ⟨c4, s5, hs5, he4⟩ := gsm_loop_step 3 b4 s4 4
    (u8_to_hex b5 ++ (u8_to_hex b6 ++ r)) h4 hs4 (by decide)
  obtain ⟨c5, s6, hs6, he5⟩ := gsm_loop_step 2 b5 s5 5
    (u8_to_hex b6 ++ r) h5 hs5 (by decide)
  obtain ⟨c6, s7, hs7, he6⟩ := gsm_loop_step 1 b6 s6 6 r h6 hs6 (by decide)
  obtain ⟨c7, he7⟩ := gsm_loop_step7 0 s7 7 r (by simpa using hs7) (by decide)
  refine ⟨[c0, c1, c2, c3, c4, c5, c6, c7], ?_, rfl⟩
  unfold parse_gsm_alphabet
  simp only [List.append_assoc]
  rw [show (8 : Nat) = 7 + 1 from rfl, he0, he1, he2, he3, he4, he5, he6, he7]
  simp [gsm_loop, PRes.mapVal]

/-- C3 witness: the theorem applied to seven zero octets ahead of a
one-byte remainder. -/
theorem claim3_witness :
    ∃ cs : List Char,
      parse_gsm_alphabet
        (u8_to_hex 0 ++ u8_to_hex 0 ++ u8_to_hex 0 ++ u8_to_hex 0 ++
          u8_to_hex 0 ++ u8_to_hex 0 ++ u8_to_hex 0 ++ [65]) 8 = .done [65] cs ∧
      cs.length = 8 :=
  (claim3_gsm_seven_bit 0 (by decide) 0 (by decide) 0 (by decide) 0 (by decide)
    0 (by decide) 0 (by decide) 0 (by decide) [65]).2

/-! ## Claim C4 — address encode/decode round trip -/

/-- The serializer's while loop emits exactly the nibble-swapped digit
pair stream of the digits not yet seen. -/
theorem serialize_number_loop_spec (l : List Char) (olen : Nat) (odd : Bool)
    (hlen : l.length = olen) (hle : olen ≤ 254) (hodd : odd = (olen % 2 == 1)) :
    ∀ (fuel seen : Nat), seen % 2 = 0 → olen ≤ seen + 2 * fuel →
      serialize_number_loop (l.map Char.toNat) olen odd fuel seen =
        some (pairs_of_digits (l.drop seen)) := by
  intro fuel
  induction fuel with
  | zero =>
    intro seen h2 hbound
    have hnil : l.drop seen = [] := List.drop_eq_nil_iff.mpr (by omega)
    simp only [serialize_number_loop, hnil, pairs_of_digits]
    rw [if_neg (by omega)]
  | succ f ih =>
    intro seen h2 hbound
    rcases Decidable.em (seen < olen) with hlt | hlt
    · have hsl : seen < l.length := by omega
      have hd1 : l.drop seen = l[seen] :: l.drop (seen + 1) :=
        List.drop_eq_getElem_cons hsl
      have hc2 : (l.map Char.toNat).getD seen 0 = (l[seen]).toNat := by
        simp [List.getD_eq_getElem?_getD, List.getElem?_map,
          List.getElem?_eq_getElem hsl]
      have hof : ¬ 256 ≤ seen + 2 := by omega
      rcases Decidable.em (seen + 1 = olen) with hone | hone
      · have hoddt : odd = true := by
          rw [hodd]
          simp only [beq_iff_eq]
          omega
        have hcondt : seen + 1 = olen ∧ odd = true := ⟨hone, hoddt⟩
        have hnil2 : l.drop (seen + 1) = [] := List.drop_eq_nil_iff.mpr (by omega)
        have hrec := ih (seen + 2) (by omega) (by omega)
        have hnil3 : l.drop (seen + 2) = [] := List.drop_eq_nil_iff.mpr (by omega)
        simp only [serialize_number_loop]
        rw [if_pos hlt, if_pos hcondt, if_neg hof, hrec, hnil3, hd1, hnil2, hc2]
        rfl
      · have hcondf : ¬ (seen + 1 = olen ∧ odd = true) := by
          intro hc
          exact hone hc.1
        have h1lt : seen + 1 < l.length := by omega
        have hd2 : l.drop (seen + 1) = l[seen + 1] :: l.drop (seen + 2) :=
          List.drop_eq_getElem_cons h1lt
        have hc1 : (l.map Char.toNat).getD (seen + 1) 0 = (l[seen + 1]).toNat := by
          simp [List.getD_eq_getElem?_getD, List.getElem?_map,
            List.getElem?_eq_getElem h1lt]
        have hrec := ih (seen + 2) (by omega) (by omega)
        simp only [serialize_number_loop]
        rw [if_pos hlt, if_neg hcondf, if_neg hof, hrec, hd1, hd2, hc1, hc2]
        rfl
    · have hnil : l.drop seen = [] := List.drop_eq_nil_iff.mpr (by omega)
      simp only [serialize_number_loop, hnil, pairs_of_digits]
      rw [if_neg hlt]

theorem takeN_two_cons (a b : Nat) (r : List Nat) :
    takeN 2 (a :: b :: r) = .done r [a, b] := by
  simp only [takeN, List.length_cons]
  rw [if_neg (by omega)]
  rfl

/-- Reading back the emitted pair stream with `decimal_octet` recovers the
original digit string, dropping the filler nibble. -/
theorem decimal_octet_number_pairs (l : List Char) :
    ∀ r : List Nat, (∀ c ∈ l, 48 ≤ c.toNat ∧ c.toNat ≤ 57) →
      decimal_octet_number ((l.length + 1) / 2) (pairs_of_digits l ++ r) =
        .done r l := by
  induction l using pairs_of_digits.induct with
  | case1 =>
    intro r _
    simp [decimal_octet_number, mapRes, countP, pairs_of_digits, concat_strings]
  | case2 d =>
    intro r _
    have hcnt : ((([d] : List Char).length + 1) / 2) = 1 := by simp
    rw [hcnt]
    have h70 : decimal_octet (70 :: d.toNat :: r) = .done r [Char.ofNat d.toNat] := by
      simp [decimal_octet, mapRes, takeN_two_cons, str_from_decimal_octet]
    simp [decimal_octet_number, mapRes, countP, pairs_of_digits, h70, PRes.bind,
      PRes.mapVal, concat_strings]
  | case3 d1 d2 rest ih =>
    intro r h
    have hd2 : d2.toNat ≠ 70 := by
      have := h d2 (by simp)
      omega
    have hrest : ∀ c ∈ rest, 48 ≤ c.toNat ∧ c.toNat ≤ 57 := by
      intro c hc
      exact h c (by simp [hc])
    have ihm := ih r hrest
    have hcnt : ((d1 :: d2 :: rest).length + 1) / 2 = (rest.length + 1) / 2 + 1 := by
      simp only [List.length_cons]
      omega
    rw [hcnt]
    simp only [decimal_octet_number, mapRes] at ihm ⊢
    cases hcp : countP decimal_octet ((rest.length + 1) / 2)
        (pairs_of_digits rest ++ r) with
    | done r2 v =>
      rw [hcp] at ihm
      simp only [concat_strings] at ihm
      simp only [PRes.done.injEq] at ihm
      obtain ⟨hr2, hv⟩ := ihm
      rw [hr2] at hcp
      have hstep : decimal_octet (pairs_of_digits (d1 :: d2 :: rest) ++ r) =
          .done (pairs_of_digits rest ++ r) [d1, d2] := by
        simp only [pairs_of_digits, List.cons_append]
        simp [decimal_octet, mapRes, takeN_two_cons, str_from_decimal_octet, hd2]
      simp only [countP, hstep, PRes.bind, hcp, PRes.mapVal, concat_strings]
      simp [hv]
    | perror =>
      rw [hcp] at ihm
      simp at ihm
    | incomplete n =>
      rw [hcp] at ihm
      simp at ihm
    | aborted =>
      rw [hcp] at ihm
      simp at ihm

/-- C4 (counterexample): the claim's universal round trip fails — for a
256-digit string the serializer's `len() as u8` truncates to 0, so the
emitted address is the two octets `00` `91` with no digit pairs, and
decoding returns the empty string, not the original digits. -/
theorem claim4_counterexample :
    (Number.new_international (List.replicate 256 '1')).serialize_to_pdu =
      some [48, 48, 57, 49] ∧
    decode_address [48, 48, 57, 49] = .done [] (AddressType.International, []) ∧
    ([] : List Char) ≠ List.replicate 256 '1' := by
  refine ⟨by set_option maxRecDepth 10000 in decide, by decide,
    by set_option maxRecDepth 10000 in decide⟩

/-- C4 (amended): for every string of at most 254 ASCII digits, address
encode-then-decode returns the original string: even lengths round-trip
exactly, and for odd lengths the encoder writes a length field of the
digit count plus one, emits nibble-swapped pairs with a final `0xF`
filler nibble, and the decoder drops the filler.  (At 255 digits the
encoder's `u8` arithmetic panics, and from 256 on the truncated length
field breaks the round trip — see the counterexample.) -/
theorem claim4_amended_round_trip (digits : List Char)
    (hd : ∀ c ∈ digits, 48 ≤ c.toNat ∧ c.toNat ≤ 57) (hlen : digits.length ≤ 254) :
    ∃ out, (Number.new_international digits).serialize_to_pdu = some out ∧
      decode_address out = .done [] (AddressType.International, digits) ∧
      hex_octet out = .done (out.drop 2)
        (if digits.length % 2 = 1 then digits.length + 1 else digits.length) := by
  have hmod : digits.length % 256 = digits.length := Nat.mod_eq_of_lt (by omega)
  have hloop := serialize_number_loop_spec digits digits.length
    (digits.length % 2 == 1) rfl hlen rfl digits.length 0 (by omega) (by omega)
  rw [List.drop_zero] at hloop
  set L : Nat := if (digits.length % 2 == 1) then digits.length + 1 else digits.length
    with hLdef
  have hL256 : L < 256 := by
    rw [hLdef]
    split <;> omega
  have hser : (Number.new_international digits).serialize_to_pdu =
      some (u8_to_hex L ++ u8_to_hex 145 ++ pairs_of_digits digits) := by
    simp only [Number.serialize_to_pdu, Number.new_international, hmod]
    rw [if_neg (by rcases Nat.even_or_odd digits.length with he | ho
                   · simp [Nat.even_iff.mp he]
                   · simp [Nat.odd_iff.mp ho]
                     omega)]
    rw [hloop]
    rfl
  have hgd : get_decimal_length L = some ((digits.length + 1) / 2) := by
    rw [hLdef]
    rcases Nat.even_or_odd digits.length with he | ho
    · have h0 : digits.length % 2 = 0 := Nat.even_iff.mp he
      simp only [h0]
      norm_num
      simp [get_decimal_length, h0]
      omega
    · have h1 : digits.length % 2 = 1 := Nat.odd_iff.mp ho
      simp only [h1]
      norm_num
      simp [get_decimal_length, Nat.add_mod, h1]
  refine ⟨u8_to_hex L ++ u8_to_hex 145 ++ pairs_of_digits digits, hser, ?_, ?_⟩
  · have hh1 : hex_octet ((u8_to_hex L ++ u8_to_hex 145 ++ pairs_of_digits digits)) =
        .done (u8_to_hex 145 ++ pairs_of_digits digits) L := by
      rw [List.append_assoc]
      exact hex_octet_u8_to_hex L hL256 _
    have hh2 : hex_octet (u8_to_hex 145 ++ pairs_of_digits digits) =
        .done (pairs_of_digits digits) 145 :=
      hex_octet_u8_to_hex 145 (by norm_num) _
    have hdec : decimal_octet_number ((digits.length + 1) / 2)
        (pairs_of_digits digits) = .done [] digits := by
      have := decimal_octet_number_pairs digits [] hd
      simpa using this
    simp only [decode_address, mapRes, hh1, hgd, PRes.bind, hh2, to_address_type,
      hdec]
  · have hh1 : hex_octet ((u8_to_hex L ++ u8_to_hex 145 ++ pairs_of_digits digits)) =
        .done (u8_to_hex 145 ++ pairs_of_digits digits) L := by
      rw [List.append_assoc]
      exact hex_octet_u8_to_hex L hL256 _
    have hdrop : (u8_to_hex L ++ u8_to_hex 145 ++ pairs_of_digits digits).drop 2 =
        u8_to_hex 145 ++ pairs_of_digits digits := by
      rw [List.append_assoc, ← u8_to_hex_length L]
      exact List.drop_left _ _
    rw [hh1, hdrop, hLdef]
    rcases Nat.even_or_odd digits.length with he | ho
    · have h0 : digits.length % 2 = 0 := Nat.even_iff.mp he
      simp [h0]
    · have h1 : digits.length % 2 = 1 := Nat.odd_iff.mp ho
      simp [h1]

/-- C4 witness: the amended theorem applied to the odd-length digit
string `123`. -/
theorem claim4_witness :
    ∃ out, (Number.new_international ['1', '2', '3']).serialize_to_pdu = some out ∧
      decode_address out = .done [] (AddressType.International, ['1', '2', '3']) ∧
      hex_octet out = .done (out.drop 2)
        (if (['1', '2', '3'] : List Char).length % 2 = 1 then
          (['1', '2', '3'] : List Char).length + 1
         else (['1', '2', '3'] : List Char).length) :=
  claim4_amended_round_trip ['1', '2', '3'] (by decide) (by decide)

/-! ## Claim C10 — zero service-center length octet -/

/-- C10 (counterexample): on a PDU whose first octet decodes to 0 (with a
valid address-type octet following), the `u8` computation
`sc_length - 1` underflows and decoding panics — it does not return an
error result. -/
theorem claim10_counterexample :
    parse_pdu [48, 48, 57, 49] = .aborted ∧
    Message.from_string [48, 48, 57, 49] = .aborted := by
  exact ⟨by decide, by decide⟩

/-- C10 (amended): for every continuation of the two octets `00` `91`,
decoding reaches the `sc_length - 1` subtraction with `sc_length = 0`,
underflows, and aborts (debug-build panic) instead of returning an error
result. -/
theorem claim10_amended_underflow_aborts (r : List Nat) :
    parse_pdu (48 :: 48 :: 57 :: 49 :: r) = .aborted := by
  have h1 : hex_octet (48 :: 48 :: 57 :: 49 :: r) = .done (57 :: 49 :: r) 0 :=
    hex_octet_u8_to_hex 0 (by decide) (57 :: 49 :: r)
  have h2 : hex_octet (57 :: 49 :: r) = .done r 145 :=
    hex_octet_u8_to_hex 145 (by decide) r
  simp only [parse_pdu, h1, PRes.bind, mapRes, h2, to_address_type, checkedSub]
  simp [PRes.bind]

/-- C10 witness: the amended theorem applied to the continuation `[48]`. -/
theorem claim10_witness : parse_pdu (48 :: 48 :: 57 :: 49 :: [48]) = .aborted :=
  claim10_amended_underflow_aborts [48]
